import Mathlib

/-!
Verification of the MODA container codec and playback engine
(sources: moda_compiler.py, moda_decompiler.py, moda_player.py).

Modelling conventions.
A byte sequence is a List Nat (each element a byte value).
A text string is a List Nat of Unicode code points.
Reading from an open file, as Python f.read(n) does, returns AT MOST n
bytes: it is clamped to what remains.  This is modelled by readN below.
struct.pack / struct.unpack with formats >I and >H are modelled by
pack4 / pack2 / unpack4 / unpack2; unpacking demands the exact byte
count, as struct.unpack does, and packing demands that the integer
fit the field, as struct.pack does.
Reading a source file from disk is externalised: the encoder takes the
base name and the content bytes of every track and of the thumbnail
directly, which is what the source obtains from the paths it is given.
-/

namespace Moda

/-- Byte sequences (elements are byte values). -/
abbrev Bytes := List Nat

/-- Text as a list of Unicode code points. -/
abbrev Str := List Nat

/-- A code point a Python str may hold after a successful UTF-8
encode: a Unicode scalar value, below the surrogate block or between
it and the top of the Unicode range. -/
def Scalar (c : Nat) : Prop := c < 0xD800 ∨ (0xE000 ≤ c ∧ c < 0x110000)

/-- A string of Unicode scalar values. -/
def StrOk (s : Str) : Prop := ∀ c ∈ s, Scalar c

instance (c : Nat) : Decidable (Scalar c) := by
  unfold Scalar; infer_instance

instance (s : Str) : Decidable (StrOk s) := by
  unfold StrOk; infer_instance

/-- Model of one Python file read f.read(n): the first n bytes (or as
many as remain) together with the rest of the stream. -/
def readN (n : Nat) (s : Bytes) : Bytes × Bytes := (s.take n, s.drop n)

theorem readN_exact {a : Bytes} (b : Bytes) {n : Nat} (h : a.length = n) :
    readN n (a ++ b) = (a, b) := by
  subst h
  simp [readN]

theorem readN_len (n : Nat) (s : Bytes) :
    (readN n s).1.length = min n s.length ∧ (readN n s).2.length = s.length - n := by
  simp [readN]

/-- struct.pack with format >H (big-endian 2-byte unsigned); fails
when the value does not fit, as struct.pack does. -/
def pack2 (n : Nat) : Option Bytes :=
  if n < 65536 then some [n / 256, n % 256] else none

/-- struct.pack with format >I (big-endian 4-byte unsigned). -/
def pack4 (n : Nat) : Option Bytes :=
  if n < 4294967296 then
    some [n / 16777216, n / 65536 % 256, n / 256 % 256, n % 256]
  else none

/-- struct.unpack with format >H: demands exactly two bytes. -/
def unpack2 : Bytes → Option Nat
  | [a, b] => some (a * 256 + b)
  | _ => none

/-- struct.unpack with format >I: demands exactly four bytes. -/
def unpack4 : Bytes → Option Nat
  | [a, b, c, d] => some (((a * 256 + b) * 256 + c) * 256 + d)
  | _ => none

theorem pack2_length {n : Nat} {bs : Bytes} (h : pack2 n = some bs) :
    bs.length = 2 := by
  unfold pack2 at h
  split at h
  · simp only [Option.some.injEq] at h
    subst h; rfl
  · cases h

theorem pack4_length {n : Nat} {bs : Bytes} (h : pack4 n = some bs) :
    bs.length = 4 := by
  unfold pack4 at h
  split at h
  · simp only [Option.some.injEq] at h
    subst h; rfl
  · cases h

theorem unpack2_pack2 {n : Nat} {bs : Bytes} (h : pack2 n = some bs) :
    unpack2 bs = some n := by
  unfold pack2 at h
  split at h
  · simp only [Option.some.injEq] at h
    subst h
    simp only [unpack2]
    congr 1
    omega
  · cases h

theorem unpack4_pack4 {n : Nat} {bs : Bytes} (h : pack4 n = some bs) :
    unpack4 bs = some n := by
  unfold pack4 at h
  split at h
  · simp only [Option.some.injEq] at h
    subst h
    simp only [unpack4]
    congr 1
    omega
  · cases h

/-! ### UTF-8

Python bytes.decode with encoding utf-8 is strict: it rejects stray
continuation bytes, overlong forms, surrogate code points and values
above 0x10FFFF.  str.encode rejects surrogates and values above
0x10FFFF.  Both are modelled here at the level of code points. -/

/-- UTF-8 encoding of a single code point, as Python str.encode
performs it (failing on surrogates and out-of-range values). -/
def utf8EncChar (c : Nat) : Option Bytes :=
  if c < 0x80 then some [c]
  else if c < 0x800 then some [0xC0 + c / 0x40, 0x80 + c % 0x40]
  else if c < 0x10000 then
    if 0xD800 ≤ c ∧ c < 0xE000 then none
    else some [0xE0 + c / 0x1000, 0x80 + c / 0x40 % 0x40, 0x80 + c % 0x40]
  else if c < 0x110000 then
    some [0xF0 + c / 0x40000, 0x80 + c / 0x1000 % 0x40,
          0x80 + c / 0x40 % 0x40, 0x80 + c % 0x40]
  else none

/-- UTF-8 encoding of a whole string. -/
def utf8Encode : Str → Option Bytes
  | [] => some []
  | c :: cs =>
    match utf8EncChar c, utf8Encode cs with
    | some b, some rest => some (b ++ rest)
    | _, _ => none

/-- Whether a byte is a UTF-8 continuation byte. -/
def utf8Cont (b : Nat) : Prop := 0x80 ≤ b ∧ b < 0xC0

instance (b : Nat) : Decidable (utf8Cont b) := by
  unfold utf8Cont; infer_instance

/-- Strict decoding of one UTF-8 sequence from the head of a byte
stream, returning the code point and the remaining bytes. -/
def utf8DecChar : Bytes → Option (Nat × Bytes)
  | [] => none
  | b :: rest =>
    if b < 0x80 then some (b, rest)
    else if b < 0xC2 then none
    else if b < 0xE0 then
      match rest with
      | c1 :: rest2 =>
        if utf8Cont c1 then some ((b - 0xC0) * 0x40 + (c1 - 0x80), rest2) else none
      | [] => none
    else if b < 0xF0 then
      match rest with
      | c1 :: c2 :: rest2 =>
        if utf8Cont c1 ∧ utf8Cont c2 then
          if (b - 0xE0) * 0x1000 + (c1 - 0x80) * 0x40 + (c2 - 0x80) < 0x800 ∨
             (0xD800 ≤ (b - 0xE0) * 0x1000 + (c1 - 0x80) * 0x40 + (c2 - 0x80) ∧
              (b - 0xE0) * 0x1000 + (c1 - 0x80) * 0x40 + (c2 - 0x80) < 0xE000) then none
          else some ((b - 0xE0) * 0x1000 + (c1 - 0x80) * 0x40 + (c2 - 0x80), rest2)
        else none
      | _ => none
    else if b < 0xF5 then
      match rest with
      | c1 :: c2 :: c3 :: rest2 =>
        if utf8Cont c1 ∧ utf8Cont c2 ∧ utf8Cont c3 then
          if (b - 0xF0) * 0x40000 + (c1 - 0x80) * 0x1000 +
             (c2 - 0x80) * 0x40 + (c3 - 0x80) < 0x10000 ∨
             0x110000 ≤ (b - 0xF0) * 0x40000 + (c1 - 0x80) * 0x1000 +
             (c2 - 0x80) * 0x40 + (c3 - 0x80) then none
          else some ((b - 0xF0) * 0x40000 + (c1 - 0x80) * 0x1000 +
                     (c2 - 0x80) * 0x40 + (c3 - 0x80), rest2)
        else none
      | _ => none
    else none

/-- Fueled loop of the strict UTF-8 decoder. -/
def utf8DecodeAux : Nat → Bytes → Option Str
  | _, [] => some []
  | 0, _ :: _ => none
  | fuel + 1, b :: rest =>
    match utf8DecChar (b :: rest) with
    | none => none
    | some (c, rest2) => (utf8DecodeAux fuel rest2).map (c :: ·)

/-- Strict UTF-8 decoding of a whole byte sequence, as Python
bytes.decode performs it.  The byte count bounds the number of decoded
characters, so it serves as fuel. -/
def utf8Decode (bs : Bytes) : Option Str := utf8DecodeAux bs.length bs

theorem utf8EncChar_scalar {c : Nat} {bs : Bytes} (h : utf8EncChar c = some bs) :
    Scalar c := by
  unfold utf8EncChar at h
  unfold Scalar
  split at h
  · omega
  · split at h
    · omega
    · split at h
      · split at h
        · cases h
        · omega
      · split at h
        · omega
        · cases h

theorem utf8EncChar_length_pos {c : Nat} {bs : Bytes}
    (h : utf8EncChar c = some bs) : 0 < bs.length := by
  unfold utf8EncChar at h
  split at h
  · simp only [Option.some.injEq] at h; subst h; simp
  · split at h
    · simp only [Option.some.injEq] at h; subst h; simp
    · split at h
      · split at h
        · cases h
        · simp only [Option.some.injEq] at h; subst h; simp
      · split at h
        · simp only [Option.some.injEq] at h; subst h; simp
        · cases h

/-- Decoding one character inverts encoding one character, whatever
follows in the stream. -/
theorem utf8DecChar_encChar {c : Nat} {b : Bytes} (h : utf8EncChar c = some b)
    (rest : Bytes) : utf8DecChar (b ++ rest) = some (c, rest) := by
  unfold utf8EncChar at h
  split at h
  · simp only [Option.some.injEq] at h
    subst h
    simp only [List.cons_append, List.nil_append, utf8DecChar]
    rw [if_pos (by omega)]
  · rename_i h1
    split at h
    · rename_i h2
      simp only [Option.some.injEq] at h
      subst h
      simp only [List.cons_append, List.nil_append, utf8DecChar]
      rw [if_neg (by omega), if_neg (by omega), if_pos (by omega),
          if_pos (by unfold utf8Cont; omega)]
      have hv : (0xC0 + c / 0x40 - 0xC0) * 0x40 + (0x80 + c % 0x40 - 0x80) = c := by
        omega
      rw [hv]
    · rename_i h2
      split at h
      · rename_i h3
        split at h
        · cases h
        · rename_i hns
          simp only [Option.some.injEq] at h
          subst h
          simp only [List.cons_append, List.nil_append, utf8DecChar]
          rw [if_neg (by omega), if_neg (by omega), if_neg (by omega),
              if_pos (by omega),
              if_pos (by constructor <;> (unfold utf8Cont; omega))]
          have hv : (0xE0 + c / 0x1000 - 0xE0) * 0x1000 +
              (0x80 + c / 0x40 % 0x40 - 0x80) * 0x40 + (0x80 + c % 0x40 - 0x80) = c := by
            omega
          rw [if_neg (by push_neg at hns; omega), hv]
      · rename_i h3
        split at h
        · rename_i h4
          simp only [Option.some.injEq] at h
          subst h
          simp only [List.cons_append, List.nil_append, utf8DecChar]
          rw [if_neg (by omega), if_neg (by omega), if_neg (by omega),
              if_neg (by omega), if_pos (by omega),
              if_pos (by refine ⟨?_, ?_, ?_⟩ <;> (unfold utf8Cont; omega))]
          have hv : (0xF0 + c / 0x40000 - 0xF0) * 0x40000 +
              (0x80 + c / 0x1000 % 0x40 - 0x80) * 0x1000 +
              (0x80 + c / 0x40 % 0x40 - 0x80) * 0x40 + (0x80 + c % 0x40 - 0x80) = c := by
            omega
          rw [if_neg (by omega), hv]
        · cases h

/-- Decoding inverts encoding, for any sufficient fuel. -/
theorem utf8DecodeAux_encode {s : Str} {bs : Bytes}
    (h : utf8Encode s = some bs) :
    ∀ fuel, bs.length ≤ fuel → utf8DecodeAux fuel bs = some s := by
  induction s generalizing bs with
  | nil =>
    simp only [utf8Encode, Option.some.injEq] at h
    subst h
    intro fuel _
    cases fuel <;> rfl
  | cons c cs ih =>
    simp only [utf8Encode] at h
    cases hb : utf8EncChar c with
    | none => rw [hb] at h; cases h
    | some b =>
      cases hrest : utf8Encode cs with
      | none => rw [hb, hrest] at h; cases h
      | some rest =>
        rw [hb, hrest] at h
        simp only [Option.some.injEq] at h
        subst h
        intro fuel hfuel
        have hbpos := utf8EncChar_length_pos hb
        have hlen : (b ++ rest).length = b.length + rest.length := by simp
        cases fuel with
        | zero => omega
        | succ f =>
          have hne : b ++ rest ≠ [] := by
            cases b with
            | nil => simp at hbpos
            | cons x xs => simp
          cases hcons : b ++ rest with
          | nil => exact absurd hcons hne
          | cons x xs =>
            rw [← hcons]
            have hstep : utf8DecodeAux (f + 1) (b ++ rest) =
                match utf8DecChar (b ++ rest) with
                | none => none
                | some (c, rest2) => (utf8DecodeAux f rest2).map (c :: ·) := by
              rw [hcons]
              rfl
            rw [hstep, utf8DecChar_encChar hb rest]
            have hr : utf8DecodeAux f rest = some cs := by
              apply ih hrest
              omega
            show (utf8DecodeAux f rest).map (c :: ·) = some (c :: cs)
            rw [hr]
            rfl

/-- Decoding inverts encoding. -/
theorem utf8Decode_utf8Encode {s : Str} {bs : Bytes}
    (h : utf8Encode s = some bs) : utf8Decode bs = some s :=
  utf8DecodeAux_encode h bs.length (Nat.le_refl _)

theorem utf8Encode_strOk {s : Str} {bs : Bytes} (h : utf8Encode s = some bs) :
    StrOk s := by
  induction s generalizing bs with
  | nil => intro c hc; cases hc
  | cons c cs ih =>
    simp only [utf8Encode] at h
    cases hb : utf8EncChar c with
    | none => rw [hb] at h; cases h
    | some b =>
      cases hrest : utf8Encode cs with
      | none => rw [hb, hrest] at h; cases h
      | some rest =>
        intro d hd
        rw [List.mem_cons] at hd
        rcases hd with rfl | hd
        · exact utf8EncChar_scalar hb
        · exact ih hrest d hd

/-- ASCII strings encode to themselves. -/
theorem utf8Encode_ascii {s : Str} (h : ∀ c ∈ s, c < 0x80) :
    utf8Encode s = some s := by
  induction s with
  | nil => rfl
  | cons c cs ih =>
    have hc : c < 0x80 := h c (by simp)
    have hcs := ih (fun d hd => h d (by simp [hd]))
    simp only [utf8Encode, utf8EncChar, if_pos hc, hcs, List.singleton_append]

theorem utf8Encode_length_pos {s : Str} {bs : Bytes}
    (h : utf8Encode s = some bs) (hne : s ≠ []) : 0 < bs.length := by
  cases s with
  | nil => exact absurd rfl hne
  | cons c cs =>
    simp only [utf8Encode] at h
    cases hb : utf8EncChar c with
    | none => rw [hb] at h; cases h
    | some b =>
      cases hrest : utf8Encode cs with
      | none => rw [hb, hrest] at h; cases h
      | some rest =>
        rw [hb, hrest] at h
        simp only [Option.some.injEq] at h
        subst h
        have := utf8EncChar_length_pos hb
        simp only [List.length_append]
        omega

/-! ### JSON values

The metadata travels through json.dumps at build time and json.loads
at extraction time.  Values are modelled by the Json type; object
fields keep their insertion order, which is how Python dicts behave
for the objects this format produces (no duplicate keys).  Floating
point numbers, NaN and Infinity never occur in this format and are
outside the model: the parser rejects them. -/

inductive Json where
  | null
  | boolean (b : Bool)
  | num (n : Int)
  | str (s : Str)
  | arr (elems : List Json)
  | obj (fields : List (Str × Json))

/-! ### json.dumps

The compiler serialises the metadata object with
json.dumps(meta, indent=2) and encodes it as UTF-8
(moda_compiler.py, line 18).  The functions below model that stdlib
call, specialised to the exact object shape built at lines 13 to 17:
an object with keys play_mode, tracks and thumbnail, the tracks value
an array of objects with keys file and order.  The emitted text,
including the indent-2 whitespace and the default ensure_ascii
escaping, matches CPython byte for byte on that shape. -/

/-- A lowercase hexadecimal digit character. -/
def hexDig (n : Nat) : Nat := if n < 10 then 48 + n else 87 + n

/-- Four lowercase hexadecimal digit characters of a value below 0x10000. -/
def hex4 (n : Nat) : Str :=
  [hexDig (n / 4096 % 16), hexDig (n / 256 % 16), hexDig (n / 16 % 16), hexDig (n % 16)]

/-- How json.dumps with ensure_ascii (the default) renders one code
point inside a string literal. -/
def escChar (c : Nat) : Str :=
  if c = 34 then [92, 34]
  else if c = 92 then [92, 92]
  else if c = 8 then [92, 98]
  else if c = 9 then [92, 116]
  else if c = 10 then [92, 110]
  else if c = 12 then [92, 102]
  else if c = 13 then [92, 114]
  else if c < 32 then 92 :: 117 :: hex4 c
  else if c < 127 then [c]
  else if c < 65536 then 92 :: 117 :: hex4 c
  else 92 :: 117 :: hex4 (55296 + (c - 65536) / 1024) ++
       (92 :: 117 :: hex4 (56320 + (c - 65536) % 1024))

/-- The JSON rendering of a whole string, quotes included. -/
def dumpStr (s : Str) : Str := 34 :: s.flatMap escChar ++ [34]

/-- Decimal digit characters of a natural number (fueled; the value
itself bounds the recursion depth). -/
def natDecAux : Nat → Nat → Str
  | 0, n => [48 + n % 10]
  | fuel + 1, n => if n < 10 then [48 + n] else natDecAux fuel (n / 10) ++ [48 + n % 10]

/-- Decimal digit characters of a natural number. -/
def natDec (n : Nat) : Str := natDecAux n n

def segTop1 : Str := [123, 10, 32, 32, 34, 112, 108, 97, 121, 95, 109, 111, 100, 101, 34, 58, 32]

def segTracks : Str := [44, 10, 32, 32, 34, 116, 114, 97, 99, 107, 115, 34, 58, 32]

def segThumb : Str := [44, 10, 32, 32, 34, 116, 104, 117, 109, 98, 110, 97, 105, 108, 34, 58, 32]

def segEnd : Str := [10, 125]

def segItemA : Str := [32, 32, 32, 32, 123, 10, 32, 32, 32, 32, 32, 32, 34, 102, 105, 108, 101, 34, 58, 32]

def segItemB : Str := [44, 10, 32, 32, 32, 32, 32, 32, 34, 111, 114, 100, 101, 114, 34, 58, 32]

def segItemC : Str := [10, 32, 32, 32, 32, 125]

def segComma : Str := [44, 10]

def segArrOpen : Str := [91, 10]

def segArrClose : Str := [10, 32, 32, 93]

def segNull : Str := [110, 117, 108, 108]

def segEmptyArr : Str := [91, 93]

/-- Rendering of one track entry of the metadata, at indent depth two,
with its one-based order. -/
def dumpItem (i : Nat) (name : Str) : Str :=
  segItemA ++ dumpStr name ++ segItemB ++ natDec (i + 1) ++ segItemC

/-- Rendering of the track entries from a given position on, joined by
the item separator. -/
def dumpItemsFrom (i : Nat) : List Str → Str
  | [] => []
  | [n] => dumpItem i n
  | n :: rest => dumpItem i n ++ segComma ++ dumpItemsFrom (i + 1) rest

/-- Rendering of the tracks array. -/
def dumpTracks (names : List Str) : Str :=
  match names with
  | [] => segEmptyArr
  | _ => segArrOpen ++ dumpItemsFrom 0 names ++ segArrClose

/-- Rendering of the full metadata object, as json.dumps(meta, indent=2)
produces it for the object built at moda_compiler.py lines 13 to 17. -/
def dumpsMeta (names : List Str) (pm : Str) (th : Option Str) : Str :=
  segTop1 ++ dumpStr pm ++ segTracks ++ dumpTracks names ++ segThumb ++
  (match th with | some t => dumpStr t | none => segNull) ++ segEnd

def keyPlayMode : Str := [112, 108, 97, 121, 95, 109, 111, 100, 101]

def keyTracks : Str := [116, 114, 97, 99, 107, 115]

def keyThumbnail : Str := [116, 104, 117, 109, 98, 110, 97, 105, 108]

def keyFile : Str := [102, 105, 108, 101]

def keyOrder : Str := [111, 114, 100, 101, 114]

/-- The metadata track entry dict for a name at zero-based position i:
its order field is i + 1 (moda_compiler.py line 15). -/
def trackObj (i : Nat) (name : Str) : Json :=
  Json.obj [(keyFile, Json.str name), (keyOrder, Json.num (Int.ofNat (i + 1)))]

/-- The list of track entry dicts from a given position on. -/
def trackObjsFrom (i : Nat) : List Str → List Json
  | [] => []
  | n :: rest => trackObj i n :: trackObjsFrom (i + 1) rest

/-- The metadata dict built by build_moda_file
(moda_compiler.py lines 13 to 17). -/
def buildMeta (names : List Str) (pm : Str) (th : Option Str) : Json :=
  Json.obj [(keyPlayMode, Json.str pm),
            (keyTracks, Json.arr (trackObjsFrom 0 names)),
            (keyThumbnail, match th with | some t => Json.str t | none => Json.null)]

/-! ### json.loads

The decompiler and the player parse the metadata bytes with
json.loads (moda_decompiler.py line 22, moda_player.py line 36).  The
recursive-descent parser below models that call: it accepts objects,
arrays, strings with the full escape and surrogate-pair rules, null,
true, false and integers, skipping JSON whitespace, exactly as the
stdlib scanner does on such documents.  Recursion is fueled; the
input length plus one is always enough fuel (each recursive step
follows at least one consumed character). -/

/-- Whether a code point is JSON whitespace. -/
def isWsChar (c : Nat) : Bool := c == 32 || c == 9 || c == 10 || c == 13

/-- Skip leading JSON whitespace. -/
def skipWs : Str → Str
  | [] => []
  | c :: r => if isWsChar c then skipWs r else c :: r

/-- Value of one hexadecimal digit character, either case. -/
def parseHexDig (c : Nat) : Option Nat :=
  if 48 ≤ c ∧ c ≤ 57 then some (c - 48)
  else if 97 ≤ c ∧ c ≤ 102 then some (c - 87)
  else if 65 ≤ c ∧ c ≤ 70 then some (c - 55)
  else none

/-- Value of four hexadecimal digit characters. -/
def hexVal4 (h1 h2 h3 h4 : Nat) : Option Nat :=
  match parseHexDig h1, parseHexDig h2, parseHexDig h3, parseHexDig h4 with
  | some a, some b, some c, some d => some (((a * 16 + b) * 16 + c) * 16 + d)
  | _, _, _, _ => none

/-- Translation of a one-character escape. -/
def escSimple (e : Nat) : Option Nat :=
  if e = 34 then some 34
  else if e = 92 then some 92
  else if e = 47 then some 47
  else if e = 98 then some 8
  else if e = 102 then some 12
  else if e = 110 then some 10
  else if e = 114 then some 13
  else if e = 116 then some 9
  else none

/-- Prefix a decoded character to a string-parse result. -/
def prependStr (n : Nat) (p : Str × Str) : Str × Str := (n :: p.1, p.2)

/-- Parse the four hexadecimal digits of a unicode escape, the
opening backslash-u already consumed. -/
def parseU4 : Str → Option (Nat × Str)
  | h1 :: h2 :: h3 :: h4 :: r =>
    match hexVal4 h1 h2 h3 h4 with
    | some n => some (n, r)
    | none => none
  | _ => none

/-- Parse one escape sequence, the backslash already consumed: the
decoded code point and the remaining input.  A high surrogate escape
followed by a low surrogate escape is recombined; a lone surrogate
escape is kept as such.  This follows the strict stdlib scanner. -/
def parseEsc : Str → Option (Nat × Str)
  | [] => none
  | e :: r2 =>
    if e = 117 then
      match parseU4 r2 with
      | none => none
      | some (n, r3) =>
        if 55296 ≤ n ∧ n < 56320 then
          match r3 with
          | e2 :: u2 :: rr =>
            if e2 = 92 ∧ u2 = 117 then
              match parseU4 rr with
              | some (m, r4) =>
                if 56320 ≤ m ∧ m < 57344 then
                  some (65536 + (n - 55296) * 1024 + (m - 56320), r4)
                else some (n, r3)
              | none => some (n, r3)
            else some (n, r3)
          | _ => some (n, r3)
        else some (n, r3)
    else
      match escSimple e with
      | some d => some (d, r2)
      | none => none

/-- Parse the body of a JSON string literal, the opening quote already
consumed: the content up to the closing quote and the remaining input.
Raw control characters are rejected, as the strict stdlib scanner
does.  Fueled; every recursive step follows at least one consumed
character, so the input length is always enough fuel. -/
def parseStrBodyAux : Nat → Str → Option (Str × Str)
  | 0, _ => none
  | _ + 1, [] => none
  | fuel + 1, c :: r =>
    if c = 34 then some ([], r)
    else if c = 92 then
      match parseEsc r with
      | some (d, r2) => (parseStrBodyAux fuel r2).map (prependStr d)
      | none => none
    else if c < 32 then none
    else (parseStrBodyAux fuel r).map (prependStr c)

/-- Parse the body of a JSON string literal; the length of the input
bounds the number of steps. -/
def parseStrBody (s : Str) : Option (Str × Str) := parseStrBodyAux s.length s

/-- Accumulate decimal digits, maximal munch. -/
def parseDigitsAux : Str → Nat → Nat × Str
  | [], acc => (acc, [])
  | c :: r, acc =>
    if 48 ≤ c ∧ c ≤ 57 then parseDigitsAux r (acc * 10 + (c - 48))
    else (acc, c :: r)

/-- Parse the unsigned integer part of a JSON number, enforcing the
no-leading-zero rule of the grammar.  A following fraction or exponent
would make a float, which this format never contains: the model
rejects it rather than misread it. -/
def parseIntPart : Str → Option (Nat × Str)
  | [] => none
  | c :: r =>
    if c = 48 then
      match r with
      | [] => some (0, [])
      | d :: _ =>
        if (48 ≤ d ∧ d ≤ 57) ∨ d = 46 ∨ d = 101 ∨ d = 69 then none
        else some (0, r)
    else if 48 ≤ c ∧ c ≤ 57 then
      match parseDigitsAux r (c - 48) with
      | (n, r2) =>
        match r2 with
        | [] => some (n, [])
        | d :: _ =>
          if d = 46 ∨ d = 101 ∨ d = 69 then none
          else some (n, r2)
    else none

/-- A pending parse obligation: a value, the members of an object after
the opening brace, or the elements of an array after the opening
bracket. -/
inductive PReq where
  | val (s : Str)
  | members (s : Str) (acc : List (Str × Json))
  | elems (s : Str) (acc : List Json)

/-- One fueled recursive-descent parser for all three obligations. -/
def parseStep : Nat → PReq → Option (Json × Str)
  | 0, _ => none
  | fuel + 1, PReq.val s =>
    match skipWs s with
    | [] => none
    | c :: r =>
      if c = 123 then
        match skipWs r with
        | 125 :: r2 => some (Json.obj [], r2)
        | _ => parseStep fuel (PReq.members r [])
      else if c = 91 then
        match skipWs r with
        | 93 :: r2 => some (Json.arr [], r2)
        | _ => parseStep fuel (PReq.elems r [])
      else if c = 34 then
        (parseStrBody r).map (fun p => (Json.str p.1, p.2))
      else if c = 110 then
        match r with
        | a :: b :: d :: r2 =>
          if a = 117 ∧ b = 108 ∧ d = 108 then some (Json.null, r2) else none
        | _ => none
      else if c = 116 then
        match r with
        | a :: b :: d :: r2 =>
          if a = 114 ∧ b = 117 ∧ d = 101 then some (Json.boolean true, r2) else none
        | _ => none
      else if c = 102 then
        match r with
        | a :: b :: d :: e :: r2 =>
          if a = 97 ∧ b = 108 ∧ d = 115 ∧ e = 101 then some (Json.boolean false, r2)
          else none
        | _ => none
      else if c = 45 then
        match parseIntPart r with
        | some (n, r2) => some (Json.num (-(n : Int)), r2)
        | none => none
      else
        match parseIntPart (c :: r) with
        | some (n, r2) => some (Json.num (n : Int), r2)
        | none => none
  | fuel + 1, PReq.members s acc =>
    match skipWs s with
    | c :: r =>
      if c = 34 then
        match parseStrBody r with
        | some (key, r2) =>
          match skipWs r2 with
          | d :: r3 =>
            if d = 58 then
              match parseStep fuel (PReq.val r3) with
              | some (v, r4) =>
                match skipWs r4 with
                | e :: r5 =>
                  if e = 44 then parseStep fuel (PReq.members r5 (acc ++ [(key, v)]))
                  else if e = 125 then some (Json.obj (acc ++ [(key, v)]), r5)
                  else none
                | [] => none
              | none => none
            else none
          | [] => none
        | none => none
      else none
    | [] => none
  | fuel + 1, PReq.elems s acc =>
    match parseStep fuel (PReq.val s) with
    | some (v, r) =>
      match skipWs r with
      | e :: r2 =>
        if e = 44 then parseStep fuel (PReq.elems r2 (acc ++ [v]))
        else if e = 93 then some (Json.arr (acc ++ [v]), r2)
        else none
      | [] => none
    | none => none

/-- Model of json.loads: parse one value, then demand that only
whitespace remains. -/
def jsonLoads (s : Str) : Option Json :=
  match parseStep (s.length + 1) (PReq.val s) with
  | some (j, r) => if skipWs r = [] then some j else none
  | none => none

/-! ### The parser inverts the serialiser -/

theorem parseHexDig_hexDig {n : Nat} (h : n < 16) :
    parseHexDig (hexDig n) = some n := by
  unfold hexDig parseHexDig
  split
  · rw [if_pos (by omega)]
    congr 1
    omega
  · rw [if_neg (by omega), if_pos (by omega)]
    congr 1
    omega

theorem hexVal4_hexDig {a b d e : Nat} (ha : a < 16) (hb : b < 16)
    (hd : d < 16) (he : e < 16) :
    hexVal4 (hexDig a) (hexDig b) (hexDig d) (hexDig e) =
      some (((a * 16 + b) * 16 + d) * 16 + e) := by
  unfold hexVal4
  rw [parseHexDig_hexDig ha, parseHexDig_hexDig hb,
      parseHexDig_hexDig hd, parseHexDig_hexDig he]

theorem hexVal4_hex4 {n : Nat} (h : n < 65536) :
    hexVal4 (hexDig (n / 4096 % 16)) (hexDig (n / 256 % 16))
      (hexDig (n / 16 % 16)) (hexDig (n % 16)) = some n := by
  rw [hexVal4_hexDig (by omega) (by omega) (by omega) (by omega)]
  congr 1
  omega

theorem escChar_length_pos (c : Nat) : 0 < (escChar c).length := by
  unfold escChar
  repeat' split
  all_goals simp [hex4]

theorem parseU4_hex4 {n : Nat} (h : n < 65536) (tail : Str) :
    parseU4 (hex4 n ++ tail) = some (n, tail) := by
  have h4 := hexVal4_hex4 h
  simp only [hex4] at h4 ⊢
  simp only [List.cons_append, List.nil_append, parseU4, h4]

/-- Parsing a non-surrogate four-digit escape, the backslash already
consumed. -/
theorem parseEsc_u {n : Nat} (h : n < 65536)
    (hns : ¬(55296 ≤ n ∧ n < 56320)) (tail : Str) :
    parseEsc (117 :: hex4 n ++ tail) = some (n, tail) := by
  simp only [List.cons_append, parseEsc, parseU4_hex4 h tail]
  rw [if_neg hns]
  simp

/-- Parsing a surrogate pair escape, the first backslash already
consumed, recombines the original code point. -/
theorem parseEsc_pair {c : Nat} (hlo : 65536 ≤ c) (hhi : c < 1114112) (tail : Str) :
    parseEsc (117 :: hex4 (55296 + (c - 65536) / 1024) ++
              (92 :: 117 :: hex4 (56320 + (c - 65536) % 1024) ++ tail)) =
      some (c, tail) := by
  have hH : 55296 + (c - 65536) / 1024 < 65536 := by omega
  have hL : 56320 + (c - 65536) % 1024 < 65536 := by omega
  simp only [List.cons_append]
  simp only [parseEsc]
  simp only [parseU4_hex4 hH]
  rw [if_pos (show 55296 ≤ 55296 + (c - 65536) / 1024 ∧
      55296 + (c - 65536) / 1024 < 56320 by omega)]
  simp only [parseU4_hex4 hL]
  rw [if_pos (show 56320 ≤ 56320 + (c - 65536) % 1024 ∧
      56320 + (c - 65536) % 1024 < 57344 by omega)]
  have hv : 65536 + (55296 + (c - 65536) / 1024 - 55296) * 1024 +
      (56320 + (c - 65536) % 1024 - 56320) = c := by omega
  rw [hv]
  simp

theorem parseEsc_simple {e d : Nat} (he : e ≠ 117) (hd : escSimple e = some d)
    (tail : Str) : parseEsc (e :: tail) = some (d, tail) := by
  simp only [parseEsc, if_neg he, hd]

theorem parseStrBodyAux_backslash (fuel : Nat) (r : Str) :
    parseStrBodyAux (fuel + 1) (92 :: r) =
      match parseEsc r with
      | some (d, r2) => (parseStrBodyAux fuel r2).map (prependStr d)
      | none => none := rfl

/-- One serialised character parses back to itself, whatever follows. -/
theorem escChar_gen {c : Nat} (h34 : ¬c = 34) (h92 : ¬c = 92) (h8 : ¬c = 8)
    (h9 : ¬c = 9) (h10 : ¬c = 10) (h12 : ¬c = 12) (h13 : ¬c = 13) :
    escChar c =
      if c < 32 then 92 :: 117 :: hex4 c
      else if c < 127 then [c]
      else if c < 65536 then 92 :: 117 :: hex4 c
      else 92 :: 117 :: hex4 (55296 + (c - 65536) / 1024) ++
           (92 :: 117 :: hex4 (56320 + (c - 65536) % 1024)) := by
  unfold escChar
  rw [if_neg h34, if_neg h92, if_neg h8, if_neg h9, if_neg h10, if_neg h12, if_neg h13]

theorem parseStrBodyAux_escChar {c : Nat} (hc : Scalar c) (tail : Str) (fuel : Nat) :
    parseStrBodyAux (fuel + 1) (escChar c ++ tail) =
      (parseStrBodyAux fuel tail).map (prependStr c) := by
  unfold Scalar at hc
  by_cases h34 : c = 34
  · subst h34
    rfl
  by_cases h92 : c = 92
  · subst h92
    rfl
  by_cases hsimple : c = 8 ∨ c = 9 ∨ c = 10 ∨ c = 12 ∨ c = 13
  · rcases hsimple with rfl | rfl | rfl | rfl | rfl <;> rfl
  push_neg at hsimple
  obtain ⟨hs8, hs9, hs10, hs12, hs13⟩ := hsimple
  by_cases hctl : c < 32
  · have hesc : escChar c ++ tail = 92 :: (117 :: hex4 c ++ tail) := by
      rw [escChar_gen h34 h92 hs8 hs9 hs10 hs12 hs13, if_pos hctl]
      simp
    rw [hesc]
    simp only [parseStrBodyAux, reduceIte]
    rw [parseEsc_u (by omega) (by omega) tail]
    rfl
  by_cases hplain : c < 127
  · have hesc : escChar c ++ tail = c :: tail := by
      rw [escChar_gen h34 h92 hs8 hs9 hs10 hs12 hs13,
          if_neg (show ¬c < 32 from hctl), if_pos hplain]
      simp
    rw [hesc]
    simp only [parseStrBodyAux]
    rw [if_neg h34, if_neg h92, if_neg (show ¬c < 32 by omega)]
  by_cases hbmp : c < 65536
  · have hesc : escChar c ++ tail = 92 :: (117 :: hex4 c ++ tail) := by
      rw [escChar_gen h34 h92 hs8 hs9 hs10 hs12 hs13,
          if_neg (show ¬c < 32 from hctl), if_neg (show ¬c < 127 from hplain),
          if_pos hbmp]
      simp
    rw [hesc]
    simp only [parseStrBodyAux, reduceIte]
    rw [parseEsc_u (by omega) (by omega) tail]
    rfl
  · have hesc2 : escChar c ++ tail = 92 :: (117 :: hex4 (55296 + (c - 65536) / 1024) ++
        (92 :: 117 :: hex4 (56320 + (c - 65536) % 1024) ++ tail)) := by
      rw [escChar_gen h34 h92 hs8 hs9 hs10 hs12 hs13,
          if_neg (show ¬c < 32 from hctl), if_neg (show ¬c < 127 from hplain),
          if_neg (show ¬c < 65536 from hbmp)]
      simp [hex4]
    rw [hesc2, parseStrBodyAux_backslash,
        parseEsc_pair (by omega) (by omega) tail]

/-- The serialised body of a string parses back to the string, for any
fuel of at least one step per character plus the closing quote. -/
theorem parseStrBodyAux_dump {s : Str} (hs : StrOk s) (rest : Str) :
    ∀ fuel, s.length + 1 ≤ fuel →
      parseStrBodyAux fuel (s.flatMap escChar ++ 34 :: rest) = some (s, rest) := by
  induction s with
  | nil =>
    intro fuel hfuel
    obtain ⟨f, rfl⟩ : ∃ f, fuel = f + 1 := ⟨fuel - 1, by omega⟩
    simp [parseStrBodyAux]
  | cons c cs ih =>
    intro fuel hfuel
    obtain ⟨f, rfl⟩ : ∃ f, fuel = f + 1 := ⟨fuel - 1, by omega⟩
    have hc : Scalar c := hs c (by simp)
    rw [List.flatMap_cons, List.append_assoc, parseStrBodyAux_escChar hc _ f,
        ih (fun d hd => hs d (by simp [hd])) f (by simp at hfuel; omega)]
    rfl

theorem length_le_flatMap_escChar (s : Str) :
    s.length ≤ (s.flatMap escChar).length := by
  induction s with
  | nil => simp
  | cons c cs ih =>
    rw [List.flatMap_cons]
    simp only [List.length_append, List.length_cons]
    have := escChar_length_pos c
    omega

/-- The serialised form of a string, quotes included, parses back to
the string. -/
theorem parseStrBody_dump {s : Str} (hs : StrOk s) (rest : Str) :
    parseStrBody (s.flatMap escChar ++ 34 :: rest) = some (s, rest) := by
  unfold parseStrBody
  apply parseStrBodyAux_dump hs
  have := length_le_flatMap_escChar s
  simp only [List.length_append, List.length_cons]
  omega

/-- A string on which maximal-munch digit reading stops at once, and
which does not continue a number with a fraction or exponent. -/
def numStop : Str → Prop
  | [] => True
  | d :: _ => ¬(48 ≤ d ∧ d ≤ 57) ∧ d ≠ 46 ∧ d ≠ 101 ∧ d ≠ 69

instance (s : Str) : Decidable (numStop s) := by
  cases s <;> (unfold numStop; infer_instance)

theorem parseDigitsAux_stop {rest : Str} (h : numStop rest) (v : Nat) :
    parseDigitsAux rest v = (v, rest) := by
  cases rest with
  | nil => rfl
  | cons d t =>
    unfold numStop at h
    simp only [parseDigitsAux, if_neg h.1]

theorem parseDigitsAux_natDecAux :
    ∀ fuel n, n ≤ fuel → ∀ acc rest,
      parseDigitsAux (natDecAux fuel n ++ rest) acc =
        parseDigitsAux rest (acc * 10 ^ (natDecAux fuel n).length + n) := by
  intro fuel
  induction fuel with
  | zero =>
    intro n hn acc rest
    interval_cases n
    simp [natDecAux, parseDigitsAux]
  | succ f ih =>
    intro n hn acc rest
    by_cases h10 : n < 10
    · simp only [natDecAux, if_pos h10, List.cons_append, List.nil_append,
        parseDigitsAux, if_pos (by omega : 48 ≤ 48 + n ∧ 48 + n ≤ 57)]
      congr 1
      simp only [List.length_cons, List.length_nil]
      omega
    · simp only [natDecAux, if_neg h10]
      rw [List.append_assoc, ih (n / 10) (by omega), List.cons_append,
          List.nil_append]
      simp only [parseDigitsAux, if_pos (by omega : 48 ≤ 48 + n % 10 ∧ 48 + n % 10 ≤ 57)]
      congr 1
      simp only [List.length_append, List.length_cons, List.length_nil]
      generalize (natDecAux f (n / 10)).length = L
      rw [pow_succ, ← mul_assoc, Nat.add_mul]
      generalize acc * 10 ^ L * 10 = m
      omega

theorem natDecAux_head :
    ∀ fuel n, n ≤ fuel →
      ∃ d t, natDecAux fuel n = d :: t ∧ 48 ≤ d ∧ d ≤ 57 ∧ (1 ≤ n → d ≠ 48) := by
  intro fuel
  induction fuel with
  | zero =>
    intro n hn
    interval_cases n
    exact ⟨48, [], rfl, by omega, by omega, by omega⟩
  | succ f ih =>
    intro n hn
    by_cases h10 : n < 10
    · refine ⟨48 + n, [], ?_, by omega, by omega, by omega⟩
      simp [natDecAux, if_pos h10]
    · obtain ⟨d, t, heq, h48, h57, hnz⟩ := ih (n / 10) (by omega)
      refine ⟨d, t ++ [48 + n % 10], ?_, h48, h57, fun _ => hnz (by omega)⟩
      simp [natDecAux, if_neg h10, heq]

/-- The decimal rendering of a positive integer parses back to it when
followed by a character that neither extends the digit run nor begins
a fraction or exponent. -/
theorem parseIntPart_natDec {n : Nat} (h1 : 1 ≤ n) {rest : Str}
    (hrest : numStop rest) :
    parseIntPart (natDec n ++ rest) = some (n, rest) := by
  obtain ⟨d, t, heq, h48, h57, hnz⟩ := natDecAux_head n n (Nat.le_refl n)
  have hd : natDec n = d :: t := heq
  have hdig : 48 ≤ d ∧ d ≤ 57 := ⟨h48, h57⟩
  have hfull : parseDigitsAux (natDec n ++ rest) 0 = (n, rest) := by
    unfold natDec
    rw [parseDigitsAux_natDecAux n n (Nat.le_refl n) 0 rest, parseDigitsAux_stop hrest]
    simp
  rw [hd, List.cons_append] at hfull
  rw [show parseDigitsAux (d :: (t ++ rest)) 0 =
        parseDigitsAux (t ++ rest) (0 * 10 + (d - 48)) from by
      simp only [parseDigitsAux, if_pos hdig]] at hfull
  rw [Nat.zero_mul, Nat.zero_add] at hfull
  rw [hd, List.cons_append]
  simp only [parseIntPart, if_neg (hnz h1), if_pos hdig, hfull]
  cases rest with
  | nil => rfl
  | cons e t2 =>
    unfold numStop at hrest
    show (if e = 46 ∨ e = 101 ∨ e = 69 then none else some (n, e :: t2)) =
      some (n, e :: t2)
    rw [if_neg (show ¬(e = 46 ∨ e = 101 ∨ e = 69) by
      push_neg
      exact ⟨hrest.2.1, hrest.2.2.1, hrest.2.2.2⟩)]

/-! ### Stepping lemmas for the value parser -/

theorem parseVal_obj_members (f : Nat) {s r w : Str} (h : skipWs s = 123 :: r)
    (h2 : skipWs r = 34 :: w) :
    parseStep (f + 1) (PReq.val s) = parseStep f (PReq.members r []) := by
  simp only [parseStep, h, h2]
  rfl

theorem parseVal_arr_elems (f : Nat) {s r w : Str} (h : skipWs s = 91 :: r)
    (h2 : skipWs r = 123 :: w) :
    parseStep (f + 1) (PReq.val s) = parseStep f (PReq.elems r []) := by
  simp only [parseStep, h, h2]
  rfl

theorem parseVal_arr_empty (f : Nat) {s r r2 : Str} (h : skipWs s = 91 :: r)
    (h2 : skipWs r = 93 :: r2) :
    parseStep (f + 1) (PReq.val s) = some (Json.arr [], r2) := by
  simp only [parseStep, h, h2]
  rfl

theorem parseVal_str (f : Nat) {s r : Str} (h : skipWs s = 34 :: r) :
    parseStep (f + 1) (PReq.val s) =
      (parseStrBody r).map (fun p => (Json.str p.1, p.2)) := by
  simp only [parseStep, h]
  rfl

theorem parseVal_null (f : Nat) {s r : Str}
    (h : skipWs s = 110 :: 117 :: 108 :: 108 :: r) :
    parseStep (f + 1) (PReq.val s) = some (Json.null, r) := by
  simp only [parseStep, h]
  rfl

theorem parseVal_num (f : Nat) {s r : Str} {c : Nat} (h : skipWs s = c :: r)
    (h48 : 48 ≤ c) (h57 : c ≤ 57) :
    parseStep (f + 1) (PReq.val s) =
      match parseIntPart (c :: r) with
      | some (n, r2) => some (Json.num (n : Int), r2)
      | none => none := by
  simp only [parseStep, h]
  have e1 : ¬c = 123 := by omega
  have e2 : ¬c = 91 := by omega
  have e3 : ¬c = 34 := by omega
  have e4 : ¬c = 110 := by omega
  have e5 : ¬c = 116 := by omega
  have e6 : ¬c = 102 := by omega
  have e7 : ¬c = 45 := by omega
  rw [if_neg e1, if_neg e2, if_neg e3, if_neg e4, if_neg e5, if_neg e6, if_neg e7]

theorem parseMembers_step (f : Nat) {s r r2 r3 : Str} {key : Str}
    (acc : List (Str × Json)) (h : skipWs s = 34 :: r)
    (hkey : parseStrBody r = some (key, r2)) (hcolon : skipWs r2 = 58 :: r3) :
    parseStep (f + 1) (PReq.members s acc) =
      match parseStep f (PReq.val r3) with
      | some (v, r4) =>
        match skipWs r4 with
        | e :: r5 =>
          if e = 44 then parseStep f (PReq.members r5 (acc ++ [(key, v)]))
          else if e = 125 then some (Json.obj (acc ++ [(key, v)]), r5)
          else none
        | [] => none
      | none => none := by
  simp only [parseStep, h, hkey, hcolon]
  rfl

theorem parseElems_step (f : Nat) (s : Str) (acc : List Json) :
    parseStep (f + 1) (PReq.elems s acc) =
      match parseStep f (PReq.val s) with
      | some (v, r) =>
        match skipWs r with
        | e :: r2 =>
          if e = 44 then parseStep f (PReq.elems r2 (acc ++ [v]))
          else if e = 93 then some (Json.arr (acc ++ [v]), r2)
          else none
        | [] => none
      | none => none := rfl

theorem keyFile_flatMap : keyFile.flatMap escChar = keyFile := rfl

theorem keyOrder_flatMap : keyOrder.flatMap escChar = keyOrder := rfl

theorem keyPlayMode_flatMap : keyPlayMode.flatMap escChar = keyPlayMode := rfl

theorem keyTracks_flatMap : keyTracks.flatMap escChar = keyTracks := rfl

theorem keyThumbnail_flatMap : keyThumbnail.flatMap escChar = keyThumbnail := rfl

/-- One serialised track entry parses back to its dict, for any fuel
with four spare steps.  The entry is always preceded by the newline of
the enclosing array layout. -/
theorem parseStep_item (f i : Nat) {name : Str} (hname : StrOk name) (rest : Str) :
    parseStep (f + 4) (PReq.val (10 :: (dumpItem i name ++ rest))) =
      some (trackObj i name, rest) := by
  have h1 : skipWs (10 :: (dumpItem i name ++ rest)) =
      123 :: ([10, 32, 32, 32, 32, 32, 32, 34, 102, 105, 108, 101, 34, 58, 32] ++
        (dumpStr name ++ (segItemB ++ (natDec (i + 1) ++ (segItemC ++ rest))))) := by
    simp [dumpItem, segItemA, skipWs, isWsChar]
  have h2 : skipWs ([10, 32, 32, 32, 32, 32, 32, 34, 102, 105, 108, 101, 34, 58, 32] ++
      (dumpStr name ++ (segItemB ++ (natDec (i + 1) ++ (segItemC ++ rest))))) =
      34 :: (102 :: 105 :: 108 :: 101 :: 34 :: 58 :: 32 ::
        (dumpStr name ++ (segItemB ++ (natDec (i + 1) ++ (segItemC ++ rest))))) := by
    simp [skipWs, isWsChar]
  have hkey : parseStrBody (102 :: 105 :: 108 :: 101 :: 34 :: 58 :: 32 ::
      (dumpStr name ++ (segItemB ++ (natDec (i + 1) ++ (segItemC ++ rest))))) =
      some (keyFile, 58 :: 32 ::
        (dumpStr name ++ (segItemB ++ (natDec (i + 1) ++ (segItemC ++ rest))))) :=
    @parseStrBody_dump keyFile (by decide) _
  have hcolon : skipWs (58 :: 32 ::
      (dumpStr name ++ (segItemB ++ (natDec (i + 1) ++ (segItemC ++ rest))))) =
      58 :: (32 :: (dumpStr name ++ (segItemB ++ (natDec (i + 1) ++ (segItemC ++ rest))))) := rfl
  rw [parseVal_obj_members (f + 3) h1 h2,
      parseMembers_step (f + 2) [] h2 hkey hcolon]
  have hsk4 : skipWs (32 :: (dumpStr name ++
      (segItemB ++ (natDec (i + 1) ++ (segItemC ++ rest))))) =
      34 :: (name.flatMap escChar ++ 34 ::
        (segItemB ++ (natDec (i + 1) ++ (segItemC ++ rest)))) := by
    simp [dumpStr, skipWs, isWsChar]
  have hval1 : parseStep (f + 2) (PReq.val (32 :: (dumpStr name ++
      (segItemB ++ (natDec (i + 1) ++ (segItemC ++ rest)))))) =
      some (Json.str name, segItemB ++ (natDec (i + 1) ++ (segItemC ++ rest))) := by
    rw [parseVal_str (f + 1) hsk4, parseStrBody_dump hname]
    rfl
  simp only [hval1]
  have hsk5 : skipWs (segItemB ++ (natDec (i + 1) ++ (segItemC ++ rest))) =
      44 :: ([10, 32, 32, 32, 32, 32, 32, 34, 111, 114, 100, 101, 114, 34, 58, 32] ++
        (natDec (i + 1) ++ (segItemC ++ rest))) := by
    simp [segItemB, skipWs, isWsChar]
  simp only [hsk5]
  rw [if_pos trivial]
  simp only [List.nil_append]
  have h2b : skipWs ([10, 32, 32, 32, 32, 32, 32, 34, 111, 114, 100, 101, 114, 34, 58, 32] ++
      (natDec (i + 1) ++ (segItemC ++ rest))) =
      34 :: (111 :: 114 :: 100 :: 101 :: 114 :: 34 :: 58 :: 32 ::
        (natDec (i + 1) ++ (segItemC ++ rest))) := by
    simp [skipWs, isWsChar]
  have hkey2 : parseStrBody (111 :: 114 :: 100 :: 101 :: 114 :: 34 :: 58 :: 32 ::
      (natDec (i + 1) ++ (segItemC ++ rest))) =
      some (keyOrder, 58 :: 32 :: (natDec (i + 1) ++ (segItemC ++ rest))) :=
    @parseStrBody_dump keyOrder (by decide) _
  have hcolon2 : skipWs (58 :: 32 :: (natDec (i + 1) ++ (segItemC ++ rest))) =
      58 :: (32 :: (natDec (i + 1) ++ (segItemC ++ rest))) := rfl
  rw [parseMembers_step (f + 1) [(keyFile, Json.str name)] h2b hkey2 hcolon2]
  obtain ⟨d, t, heq, h48, h57, hnz⟩ := natDecAux_head (i + 1) (i + 1) (Nat.le_refl _)
  have hdns : isWsChar d = false := by
    unfold isWsChar
    simp only [Bool.or_eq_false_iff, beq_eq_false_iff_ne]
    omega
  have hsk7 : skipWs (32 :: (natDec (i + 1) ++ (segItemC ++ rest))) =
      d :: (t ++ (segItemC ++ rest)) := by
    rw [show natDec (i + 1) = d :: t from heq, List.cons_append]
    show skipWs (d :: (t ++ (segItemC ++ rest))) = d :: (t ++ (segItemC ++ rest))
    unfold skipWs
    rw [hdns]
    simp
  have hstop : numStop (segItemC ++ rest) := by
    simp [segItemC, numStop]
  have hip : parseIntPart (d :: (t ++ (segItemC ++ rest))) =
      some (i + 1, segItemC ++ rest) := by
    rw [← List.cons_append, ← heq]
    exact parseIntPart_natDec (by omega) hstop
  have hval2 : parseStep (f + 1) (PReq.val (32 :: (natDec (i + 1) ++ (segItemC ++ rest)))) =
      some (Json.num ((i + 1 : Nat) : Int), segItemC ++ rest) := by
    rw [parseVal_num f hsk7 h48 h57]
    simp only [hip]
  simp only [hval2]
  have hsk8 : skipWs (segItemC ++ rest) = 125 :: rest := by
    simp [segItemC, skipWs, isWsChar]
  simp only [hsk8]
  rw [if_neg (by omega), if_pos trivial]
  rfl

/-- The serialised items of a non-empty track list, followed by the
array closing layout, parse back to the track dicts, for fuel with
five spare steps per item.  The leading newline is the one emitted
right after the opening bracket or after the comma of the previous
item. -/
theorem parseStep_items :
    ∀ (names : List Str) (f i : Nat) (acc : List Json) (rest : Str),
      names ≠ [] → (∀ nm ∈ names, StrOk nm) →
      parseStep (f + 5 * names.length)
          (PReq.elems (10 :: (dumpItemsFrom i names ++ (segArrClose ++ rest))) acc) =
        some (Json.arr (acc ++ trackObjsFrom i names), rest) := by
  intro names
  induction names with
  | nil =>
    intro f i acc rest hne _
    exact absurd rfl hne
  | cons n ns ih =>
    intro f i acc rest _ hnames
    cases ns with
    | nil =>
      have hL : f + 5 * [n].length = (f + 4) + 1 := by
        simp
      rw [hL, parseElems_step (f + 4)]
      simp only [dumpItemsFrom]
      rw [parseStep_item f i (hnames n (by simp)) (segArrClose ++ rest)]
      have hsk : skipWs (segArrClose ++ rest) = 93 :: rest := by
        simp [segArrClose, skipWs, isWsChar]
      simp only [hsk]
      rw [if_neg (by omega), if_pos trivial]
      rfl
    | cons n2 ns2 =>
      have hL : f + 5 * (n :: n2 :: ns2).length = ((f + 4) + 5 * (n2 :: ns2).length) + 1 := by
        simp only [List.length_cons]
        omega
      rw [hL, parseElems_step ((f + 4) + 5 * (n2 :: ns2).length)]
      have hsplit : dumpItemsFrom i (n :: n2 :: ns2) ++ (segArrClose ++ rest) =
          dumpItem i n ++ (44 :: 10 :: (dumpItemsFrom (i + 1) (n2 :: ns2) ++
            (segArrClose ++ rest))) := by
        simp [dumpItemsFrom, segComma]
      rw [hsplit]
      have hfuel2 : (f + 4) + 5 * (n2 :: ns2).length = (f + 5 * (n2 :: ns2).length) + 4 := by
        omega
      rw [hfuel2, parseStep_item (f + 5 * (n2 :: ns2).length) i (hnames n (by simp))]
      have hsk : skipWs (44 :: 10 :: (dumpItemsFrom (i + 1) (n2 :: ns2) ++
          (segArrClose ++ rest))) =
          44 :: (10 :: (dumpItemsFrom (i + 1) (n2 :: ns2) ++ (segArrClose ++ rest))) := rfl
      simp only [hsk]
      rw [if_pos trivial]
      have hback : (f + 5 * (n2 :: ns2).length) + 4 = (f + 4) + 5 * (n2 :: ns2).length := by
        omega
      rw [hback, ih (f + 4) (i + 1) (acc ++ [trackObj i n]) rest (by simp)
        (fun nm h => hnames nm (by simp [h]))]
      simp [trackObjsFrom]

theorem skipWs_ws_cons {c : Nat} (h : isWsChar c = true) (s : Str) :
    skipWs (c :: s) = skipWs s := by
  simp [skipWs, h]

theorem parseVal_drop_ws (f : Nat) {c : Nat} (h : isWsChar c = true) (s : Str) :
    parseStep (f + 1) (PReq.val (c :: s)) = parseStep (f + 1) (PReq.val s) := by
  simp only [parseStep, skipWs_ws_cons h]

/-- The serialised tracks array parses back to the track dicts, for
fuel with five spare steps per item and two more. -/
theorem parseStep_tracks (f : Nat) {names : List Str}
    (hnames : ∀ nm ∈ names, StrOk nm) (rest : Str) :
    parseStep ((f + 5 * names.length) + 2) (PReq.val (dumpTracks names ++ rest)) =
      some (Json.arr (trackObjsFrom 0 names), rest) := by
  cases names with
  | nil =>
    have h : skipWs (dumpTracks [] ++ rest) = 91 :: (93 :: rest) := by
      simp [dumpTracks, segEmptyArr, skipWs, isWsChar]
    have h2 : skipWs (93 :: rest) = 93 :: rest := rfl
    rw [show (f + 5 * ([] : List Str).length) + 2 = (f + 1) + 1 from by simp]
    rw [parseVal_arr_empty (f + 1) h h2]
    rfl
  | cons n ns =>
    obtain ⟨w, hw⟩ : ∃ w, dumpItemsFrom 0 (n :: ns) =
        32 :: 32 :: 32 :: 32 :: 123 :: w := by
      cases ns <;> (simp [dumpItemsFrom, dumpItem, segItemA]; try exact ⟨_, rfl⟩)
    have hsplit : dumpTracks (n :: ns) ++ rest =
        91 :: (10 :: (dumpItemsFrom 0 (n :: ns) ++ (segArrClose ++ rest))) := by
      simp [dumpTracks, segArrOpen]
    have h : skipWs (dumpTracks (n :: ns) ++ rest) =
        91 :: (10 :: (dumpItemsFrom 0 (n :: ns) ++ (segArrClose ++ rest))) := by
      rw [hsplit]
      rfl
    have h2 : skipWs (10 :: (dumpItemsFrom 0 (n :: ns) ++ (segArrClose ++ rest))) =
        123 :: (w ++ (segArrClose ++ rest)) := by
      rw [hw]
      simp [skipWs, isWsChar]
    rw [show (f + 5 * (n :: ns).length) + 2 = (((f + 1) + 5 * (n :: ns).length)) + 1 from by
      omega]
    rw [parseVal_arr_elems ((f + 1) + 5 * (n :: ns).length) h h2]
    rw [parseStep_items (n :: ns) (f + 1) 0 [] rest (by simp) hnames]
    simp

/-- The serialised metadata object with an abstract thumbnail member
parses back to the metadata dict, for fuel with five spare steps per
track and six more. -/
theorem parseStep_meta_gen (f : Nat) {names : List Str} {pm tv : Str} {jv : Json}
    (hpm : StrOk pm) (hnames : ∀ nm ∈ names, StrOk nm) (rest : Str)
    (hval3 : ∀ g, parseStep (g + 1) (PReq.val (32 :: (tv ++ (segEnd ++ rest)))) =
      some (jv, segEnd ++ rest)) :
    parseStep ((f + 5 * names.length) + 6)
        (PReq.val ((segTop1 ++ (dumpStr pm ++ (segTracks ++ (dumpTracks names ++
          (segThumb ++ (tv ++ segEnd)))))) ++ rest)) =
      some (Json.obj [(keyPlayMode, Json.str pm),
                      (keyTracks, Json.arr (trackObjsFrom 0 names)),
                      (keyThumbnail, jv)], rest) := by
  have hsplit : (segTop1 ++ (dumpStr pm ++ (segTracks ++ (dumpTracks names ++
      (segThumb ++ (tv ++ segEnd)))))) ++ rest =
      123 :: ([10, 32, 32, 34, 112, 108, 97, 121, 95, 109, 111, 100, 101, 34, 58, 32] ++
        (dumpStr pm ++ (segTracks ++ (dumpTracks names ++ (segThumb ++
          (tv ++
            (segEnd ++ rest))))))) := by
    simp [segTop1]
  have h1 : skipWs ((segTop1 ++ (dumpStr pm ++ (segTracks ++ (dumpTracks names ++
      (segThumb ++ (tv ++ segEnd)))))) ++ rest) =
      123 :: ([10, 32, 32, 34, 112, 108, 97, 121, 95, 109, 111, 100, 101, 34, 58, 32] ++
        (dumpStr pm ++ (segTracks ++ (dumpTracks names ++ (segThumb ++
          (tv ++
            (segEnd ++ rest))))))) := by
    rw [hsplit]
    rfl
  have h2 : skipWs ([10, 32, 32, 34, 112, 108, 97, 121, 95, 109, 111, 100, 101, 34, 58, 32] ++
      (dumpStr pm ++ (segTracks ++ (dumpTracks names ++ (segThumb ++
        (tv ++
          (segEnd ++ rest))))))) =
      34 :: (112 :: 108 :: 97 :: 121 :: 95 :: 109 :: 111 :: 100 :: 101 :: 34 :: 58 :: 32 ::
        (dumpStr pm ++ (segTracks ++ (dumpTracks names ++ (segThumb ++
          (tv ++
            (segEnd ++ rest))))))) := by
    simp [skipWs, isWsChar]
  have hkey1 : parseStrBody (112 :: 108 :: 97 :: 121 :: 95 :: 109 :: 111 :: 100 :: 101 ::
      34 :: 58 :: 32 :: (dumpStr pm ++ (segTracks ++ (dumpTracks names ++ (segThumb ++
        (tv ++
          (segEnd ++ rest))))))) =
      some (keyPlayMode, 58 :: 32 :: (dumpStr pm ++ (segTracks ++ (dumpTracks names ++
        (segThumb ++ (tv ++
          (segEnd ++ rest))))))) := by
    have h := @parseStrBody_dump keyPlayMode (by decide)
      (58 :: 32 :: (dumpStr pm ++ (segTracks ++ (dumpTracks names ++
        (segThumb ++ (tv ++
          (segEnd ++ rest)))))))
    rw [keyPlayMode_flatMap] at h
    rw [show keyPlayMode ++ 34 :: (58 :: 32 :: (dumpStr pm ++ (segTracks ++
        (dumpTracks names ++ (segThumb ++
          (tv ++
            (segEnd ++ rest))))))) =
      112 :: 108 :: 97 :: 121 :: 95 :: 109 :: 111 :: 100 :: 101 :: 34 :: 58 :: 32 ::
        (dumpStr pm ++ (segTracks ++ (dumpTracks names ++ (segThumb ++
          (tv ++
            (segEnd ++ rest)))))) from by simp [keyPlayMode]] at h
    exact h
  have hcolon1 : skipWs (58 :: 32 :: (dumpStr pm ++ (segTracks ++ (dumpTracks names ++
      (segThumb ++ (tv ++
        (segEnd ++ rest))))))) =
      58 :: (32 :: (dumpStr pm ++ (segTracks ++ (dumpTracks names ++
        (segThumb ++ (tv ++
          (segEnd ++ rest))))))) := rfl
  rw [show (f + 5 * names.length) + 6 = ((f + 5 * names.length) + 5) + 1 from by omega,
      parseVal_obj_members ((f + 5 * names.length) + 5) h1 h2,
      show (f + 5 * names.length) + 5 = ((f + 5 * names.length) + 4) + 1 from by omega,
      parseMembers_step ((f + 5 * names.length) + 4) [] h2 hkey1 hcolon1]
  have hsk4 : skipWs (32 :: (dumpStr pm ++ (segTracks ++ (dumpTracks names ++
      (segThumb ++ (tv ++
        (segEnd ++ rest))))))) =
      34 :: (pm.flatMap escChar ++ 34 :: (segTracks ++ (dumpTracks names ++
        (segThumb ++ (tv ++
          (segEnd ++ rest)))))) := by
    simp [dumpStr, skipWs, isWsChar]
  have hval1 : parseStep ((f + 5 * names.length) + 4) (PReq.val (32 :: (dumpStr pm ++
      (segTracks ++ (dumpTracks names ++ (segThumb ++
        (tv ++
          (segEnd ++ rest)))))))) =
      some (Json.str pm, segTracks ++ (dumpTracks names ++ (segThumb ++
        (tv ++
          (segEnd ++ rest))))) := by
    rw [show (f + 5 * names.length) + 4 = ((f + 5 * names.length) + 3) + 1 from by omega,
        parseVal_str ((f + 5 * names.length) + 3) hsk4, parseStrBody_dump hpm]
    rfl
  simp only [hval1]
  have hsk5 : skipWs (segTracks ++ (dumpTracks names ++ (segThumb ++
      (tv ++ (segEnd ++ rest))))) =
      44 :: ([10, 32, 32, 34, 116, 114, 97, 99, 107, 115, 34, 58, 32] ++
        (dumpTracks names ++ (segThumb ++
          (tv ++
            (segEnd ++ rest))))) := by
    simp [segTracks, skipWs, isWsChar]
  simp only [hsk5]
  rw [if_pos trivial]
  simp only [List.nil_append]
  have h2b : skipWs ([10, 32, 32, 34, 116, 114, 97, 99, 107, 115, 34, 58, 32] ++
      (dumpTracks names ++ (segThumb ++
        (tv ++ (segEnd ++ rest))))) =
      34 :: (116 :: 114 :: 97 :: 99 :: 107 :: 115 :: 34 :: 58 :: 32 ::
        (dumpTracks names ++ (segThumb ++
          (tv ++
            (segEnd ++ rest))))) := by
    simp [skipWs, isWsChar]
  have hkey2 : parseStrBody (116 :: 114 :: 97 :: 99 :: 107 :: 115 :: 34 :: 58 :: 32 ::
      (dumpTracks names ++ (segThumb ++
        (tv ++ (segEnd ++ rest))))) =
      some (keyTracks, 58 :: 32 :: (dumpTracks names ++ (segThumb ++
        (tv ++ (segEnd ++ rest))))) := by
    have h := @parseStrBody_dump keyTracks (by decide)
      (58 :: 32 :: (dumpTracks names ++ (segThumb ++
        (tv ++ (segEnd ++ rest)))))
    rw [keyTracks_flatMap] at h
    rw [show keyTracks ++ 34 :: (58 :: 32 :: (dumpTracks names ++ (segThumb ++
        (tv ++ (segEnd ++ rest))))) =
      116 :: 114 :: 97 :: 99 :: 107 :: 115 :: 34 :: 58 :: 32 ::
        (dumpTracks names ++ (segThumb ++
          (tv ++ (segEnd ++ rest))))
      from by simp [keyTracks]] at h
    exact h
  have hcolon2 : skipWs (58 :: 32 :: (dumpTracks names ++ (segThumb ++
      (tv ++ (segEnd ++ rest))))) =
      58 :: (32 :: (dumpTracks names ++ (segThumb ++
        (tv ++
          (segEnd ++ rest))))) := rfl
  rw [show (f + 5 * names.length) + 4 = ((f + 5 * names.length) + 3) + 1 from by omega,
      parseMembers_step ((f + 5 * names.length) + 3) [(keyPlayMode, Json.str pm)] h2b
        hkey2 hcolon2]
  have hval2 : parseStep ((f + 5 * names.length) + 3) (PReq.val (32 ::
      (dumpTracks names ++ (segThumb ++
        (tv ++
          (segEnd ++ rest)))))) =
      some (Json.arr (trackObjsFrom 0 names), segThumb ++
        (tv ++ (segEnd ++ rest))) := by
    rw [show (f + 5 * names.length) + 3 = (((f + 5 * names.length)) + 2) + 1 from by omega,
        parseVal_drop_ws ((f + 5 * names.length) + 2)
          (show isWsChar 32 = true from rfl),
        show ((f + 5 * names.length) + 2) + 1 = ((f + 1) + 5 * names.length) + 2 from by
          omega]
    exact parseStep_tracks (f + 1) hnames _
  simp only [hval2]
  have hsk6 : skipWs (segThumb ++
      (tv ++ (segEnd ++ rest))) =
      44 :: ([10, 32, 32, 34, 116, 104, 117, 109, 98, 110, 97, 105, 108, 34, 58, 32] ++
        (tv ++ (segEnd ++ rest))) := by
    simp [segThumb, skipWs, isWsChar]
  simp only [hsk6]
  rw [if_pos trivial]
  simp only [List.cons_append, List.nil_append]
  have h2c : skipWs (10 :: 32 :: 32 :: 34 :: 116 :: 104 :: 117 :: 109 :: 98 :: 110 ::
      97 :: 105 :: 108 :: 34 :: 58 :: 32 :: (tv ++ (segEnd ++ rest))) =
      34 :: (116 :: 104 :: 117 :: 109 :: 98 :: 110 :: 97 :: 105 :: 108 :: 34 :: 58 :: 32 ::
        (tv ++ (segEnd ++ rest))) := by
    simp [skipWs, isWsChar]
  have hkey3 : parseStrBody (116 :: 104 :: 117 :: 109 :: 98 :: 110 :: 97 :: 105 :: 108 ::
      34 :: 58 :: 32 ::
      (tv ++ (segEnd ++ rest))) =
      some (keyThumbnail, 58 :: 32 ::
        (tv ++ (segEnd ++ rest))) := by
    have h := @parseStrBody_dump keyThumbnail (by decide)
      (58 :: 32 ::
        (tv ++ (segEnd ++ rest)))
    rw [keyThumbnail_flatMap] at h
    rw [show keyThumbnail ++ 34 :: (58 :: 32 ::
        (tv ++ (segEnd ++ rest))) =
      116 :: 104 :: 117 :: 109 :: 98 :: 110 :: 97 :: 105 :: 108 :: 34 :: 58 :: 32 ::
        (tv ++ (segEnd ++ rest))
      from by simp [keyThumbnail]] at h
    exact h
  have hcolon3 : skipWs (58 :: 32 ::
      (tv ++ (segEnd ++ rest))) =
      58 :: (32 ::
        (tv ++ (segEnd ++ rest))) := rfl
  rw [show (f + 5 * names.length) + 3 = ((f + 5 * names.length) + 2) + 1 from by omega,
      parseMembers_step ((f + 5 * names.length) + 2)
        [(keyPlayMode, Json.str pm), (keyTracks, Json.arr (trackObjsFrom 0 names))] h2c
        hkey3 hcolon3]
  have hval3b : parseStep ((f + 5 * names.length) + 2) (PReq.val (32 ::
      (tv ++ (segEnd ++ rest)))) = some (jv, segEnd ++ rest) := by
    rw [show (f + 5 * names.length) + 2 = ((f + 5 * names.length) + 1) + 1 from by omega]
    exact hval3 _
  simp only [hval3b]
  have hsk8 : skipWs (segEnd ++ rest) = 125 :: rest := by
    simp [segEnd, skipWs, isWsChar]
  simp only [hsk8]
  rw [if_neg (by omega), if_pos trivial]
  rfl


/-- The serialised metadata object parses back to the metadata dict,
for fuel with five spare steps per track and six more. -/
theorem parseStep_meta (f : Nat) {names : List Str} {pm : Str} {th : Option Str}
    (hpm : StrOk pm) (hnames : ∀ nm ∈ names, StrOk nm)
    (hth : ∀ t ∈ th.toList, StrOk t) (rest : Str) :
    parseStep ((f + 5 * names.length) + 6) (PReq.val (dumpsMeta names pm th ++ rest)) =
      some (buildMeta names pm th, rest) := by
  cases th with
  | none =>
    have happ : dumpsMeta names pm none =
        segTop1 ++ (dumpStr pm ++ (segTracks ++ (dumpTracks names ++
          (segThumb ++ (segNull ++ segEnd))))) := by
      simp [dumpsMeta]
    rw [happ]
    exact parseStep_meta_gen f hpm hnames rest (fun g => by
      have hsk : skipWs (32 :: (segNull ++ (segEnd ++ rest))) =
          110 :: 117 :: 108 :: 108 :: (segEnd ++ rest) := by
        simp [segNull, skipWs, isWsChar]
      rw [parseVal_null g hsk])
  | some t =>
    have happ : dumpsMeta names pm (some t) =
        segTop1 ++ (dumpStr pm ++ (segTracks ++ (dumpTracks names ++
          (segThumb ++ (dumpStr t ++ segEnd))))) := by
      simp [dumpsMeta]
    rw [happ]
    exact parseStep_meta_gen f hpm hnames rest (fun g => by
      have hsk : skipWs (32 :: (dumpStr t ++ (segEnd ++ rest))) =
          34 :: (t.flatMap escChar ++ 34 :: (segEnd ++ rest)) := by
        simp [dumpStr, skipWs, isWsChar]
      rw [parseVal_str g hsk, parseStrBody_dump (hth t (by simp)) (segEnd ++ rest)]
      rfl)

/-! ### The serialised metadata is ASCII, and long enough to fuel its
own parse -/

theorem hex4_ascii {x e : Nat} (he : e ∈ hex4 x) : e < 128 := by
  have hdig : ∀ m, m < 16 → hexDig m < 128 := by
    intro m hm
    unfold hexDig
    split <;> omega
  simp only [hex4, List.mem_cons, List.not_mem_nil, or_false] at he
  rcases he with rfl | rfl | rfl | rfl <;> exact hdig _ (by omega)

theorem escChar_ascii {c d : Nat} (hd : d ∈ escChar c) : d < 128 := by
  unfold escChar at hd
  split at hd
  · simp at hd; omega
  · split at hd
    · simp at hd; omega
    · split at hd
      · simp at hd; omega
      · split at hd
        · simp at hd; omega
        · split at hd
          · simp at hd; omega
          · split at hd
            · simp at hd; omega
            · split at hd
              · simp at hd; omega
              · split at hd
                · simp only [List.mem_cons] at hd
                  rcases hd with rfl | rfl | hd
                  · omega
                  · omega
                  · exact hex4_ascii hd
                · split at hd
                  · simp at hd; omega
                  · split at hd
                    · simp only [List.mem_cons] at hd
                      rcases hd with rfl | rfl | hd
                      · omega
                      · omega
                      · exact hex4_ascii hd
                    · simp only [List.mem_cons, List.mem_append, List.mem_cons] at hd
                      rcases hd with (rfl | rfl | hd) | (rfl | rfl | hd)
                      · omega
                      · omega
                      · exact hex4_ascii hd
                      · omega
                      · omega
                      · exact hex4_ascii hd

theorem dumpStr_ascii {s : Str} {d : Nat} (hd : d ∈ dumpStr s) : d < 128 := by
  simp only [dumpStr, List.mem_cons, List.mem_append, List.mem_flatMap,
    List.mem_singleton] at hd
  rcases hd with (rfl | ⟨a, _, ha⟩) | (rfl | h2)
  · omega
  · exact escChar_ascii ha
  · omega
  · simp at h2

theorem natDecAux_digits :
    ∀ fuel n, ∀ d ∈ natDecAux fuel n, 48 ≤ d ∧ d ≤ 57 := by
  intro fuel
  induction fuel with
  | zero =>
    intro n d hd
    simp only [natDecAux, List.mem_singleton] at hd
    omega
  | succ f ih =>
    intro n d hd
    simp only [natDecAux] at hd
    split at hd
    · simp only [List.mem_singleton] at hd
      omega
    · simp only [List.mem_append, List.mem_singleton] at hd
      rcases hd with hd | rfl
      · exact ih _ d hd
      · omega

theorem segItemA_ascii : ∀ d ∈ segItemA, d < 128 := by decide

theorem segItemB_ascii : ∀ d ∈ segItemB, d < 128 := by decide

theorem segItemC_ascii : ∀ d ∈ segItemC, d < 128 := by decide

theorem segComma_ascii : ∀ d ∈ segComma, d < 128 := by decide

theorem segArrOpen_ascii : ∀ d ∈ segArrOpen, d < 128 := by decide

theorem segArrClose_ascii : ∀ d ∈ segArrClose, d < 128 := by decide

theorem segTop1_ascii : ∀ d ∈ segTop1, d < 128 := by decide

theorem segTracks_ascii : ∀ d ∈ segTracks, d < 128 := by decide

theorem segThumb_ascii : ∀ d ∈ segThumb, d < 128 := by decide

theorem segEnd_ascii : ∀ d ∈ segEnd, d < 128 := by decide

theorem segNull_ascii : ∀ d ∈ segNull, d < 128 := by decide

theorem dumpTracksNil_ascii : ∀ d ∈ dumpTracks [], d < 128 := by decide

theorem dumpItem_ascii {i : Nat} {name : Str} {d : Nat}
    (hd : d ∈ dumpItem i name) : d < 128 := by
  simp only [dumpItem, List.mem_append] at hd
  rcases hd with ((((hd | hd) | hd) | hd) | hd)
  · exact segItemA_ascii d hd
  · exact dumpStr_ascii hd
  · exact segItemB_ascii d hd
  · have := natDecAux_digits (i + 1) (i + 1) d hd
    omega
  · exact segItemC_ascii d hd

theorem dumpItemsFrom_ascii :
    ∀ (names : List Str) (i : Nat), ∀ d ∈ dumpItemsFrom i names, d < 128 := by
  intro names
  induction names with
  | nil =>
    intro i d hd
    simp [dumpItemsFrom] at hd
  | cons n ns ih =>
    intro i d hd
    cases ns with
    | nil => exact dumpItem_ascii hd
    | cons n2 ns2 =>
      simp only [dumpItemsFrom, List.mem_append] at hd
      rcases hd with (hd | hd) | hd
      · exact dumpItem_ascii hd
      · exact segComma_ascii d hd
      · exact ih (i + 1) d hd

theorem dumpTracks_ascii {names : List Str} {d : Nat}
    (hd : d ∈ dumpTracks names) : d < 128 := by
  cases names with
  | nil => exact dumpTracksNil_ascii d hd
  | cons n ns =>
    simp only [dumpTracks, List.mem_append] at hd
    rcases hd with (hd | hd) | hd
    · exact segArrOpen_ascii d hd
    · exact dumpItemsFrom_ascii (n :: ns) 0 d hd
    · exact segArrClose_ascii d hd

theorem dumpsMeta_ascii (names : List Str) (pm : Str) (th : Option Str) :
    ∀ d ∈ dumpsMeta names pm th, d < 128 := by
  intro d hd
  simp only [dumpsMeta, List.mem_append] at hd
  rcases hd with (((((hd | hd) | hd) | hd) | hd) | hd) | hd
  · exact segTop1_ascii d hd
  · exact dumpStr_ascii hd
  · exact segTracks_ascii d hd
  · exact dumpTracks_ascii hd
  · exact segThumb_ascii d hd
  · cases th with
    | none => exact segNull_ascii d hd
    | some t => exact dumpStr_ascii hd
  · exact segEnd_ascii d hd

theorem dumpItemsFrom_length (names : List Str) :
    ∀ i, 5 * names.length ≤ (dumpItemsFrom i names).length := by
  induction names with
  | nil =>
    intro i
    simp [dumpItemsFrom]
  | cons n ns ih =>
    intro i
    cases ns with
    | nil =>
      simp only [dumpItemsFrom, dumpItem, List.length_cons, List.length_nil,
        List.length_append]
      have : segItemA.length = 20 := rfl
      omega
    | cons n2 ns2 =>
      have h2 := ih (i + 1)
      simp only [dumpItemsFrom, dumpItem, List.length_cons, List.length_nil,
        List.length_append] at h2 ⊢
      have : segItemA.length = 20 := rfl
      omega

theorem dumpsMeta_length (names : List Str) (pm : Str) (th : Option Str) :
    5 * names.length + 5 ≤ (dumpsMeta names pm th).length := by
  have htr : 5 * names.length ≤ (dumpTracks names).length := by
    cases names with
    | nil => simp [dumpTracks]
    | cons n ns =>
      have := dumpItemsFrom_length (n :: ns) 0
      simp only [dumpTracks, List.length_append]
      omega
  simp only [dumpsMeta, List.length_append]
  have h1 : segTop1.length = 17 := rfl
  have h2 : segTracks.length = 14 := rfl
  omega

/-- json.loads inverts json.dumps on the metadata object this format
produces. -/
theorem jsonLoads_dumpsMeta {names : List Str} {pm : Str} {th : Option Str}
    (hpm : StrOk pm) (hnames : ∀ nm ∈ names, StrOk nm)
    (hth : ∀ t ∈ th.toList, StrOk t) :
    jsonLoads (dumpsMeta names pm th) = some (buildMeta names pm th) := by
  unfold jsonLoads
  have hlen := dumpsMeta_length names pm th
  obtain ⟨f, hf⟩ : ∃ f, (dumpsMeta names pm th).length + 1 = (f + 5 * names.length) + 6 :=
    ⟨(dumpsMeta names pm th).length + 1 - (5 * names.length + 6), by omega⟩
  rw [hf]
  have h := parseStep_meta f hpm hnames hth []
  rw [List.append_nil] at h
  rw [h]
  rfl

/-! ### The container codec

build_moda_file (moda_compiler.py lines 12 to 46) concatenates a
4-byte magic, the 4-byte big-endian length of the UTF-8 encoded
metadata JSON, that JSON, a thumbnail section, a 2-byte track count
and one record per track.  File-system access is externalized: a
track is given as its basename (a string of code points) together
with the bytes read from it, and likewise for the thumbnail.
extract_moda (moda_decompiler.py lines 13 to 49) reads the fields
back with clamped reads (f.read(n) returns at most n bytes); only
struct.unpack demands exact widths. -/

def modaMagic : Bytes := [77, 79, 68, 65]

/-- The failure modes of extract_moda: the explicit magic check at
moda_decompiler.py line 17, a struct.error from a short fixed-width
read, a UnicodeDecodeError from bytes.decode, and a json.loads
failure.  The source re-raises each as ValueError; they are kept
apart here. -/
inductive MErr where
  | badMagic
  | shortRead
  | badUtf8
  | badJson
deriving DecidableEq

/-- What extract_moda recovers from a container: the parsed metadata
(its return value, moda_decompiler.py line 49), the thumbnail name
and bytes written at lines 31 to 32 when present, and each track
name with the bytes written at lines 42 to 43, in order. -/
structure Raw where
  meta : Json
  thumb : Option (Str × Bytes)
  tracks : List (Str × Bytes)

/-- The thumbnail section written by build_moda_file lines 26 to 35:
name length, name, data length and data when a thumbnail is given;
just the 2-byte zero otherwise. -/
def thumbBytes : Option (Str × Bytes) → Option Bytes
  | none => some [0, 0]
  | some (nm, d) =>
    match utf8Encode nm with
    | none => none
    | some nb =>
      match pack2 nb.length, pack4 d.length with
      | some a, some b => some (a ++ (nb ++ (b ++ d)))
      | _, _ => none

/-- The track records written by build_moda_file lines 39 to 46. -/
def tracksBytes : List (Str × Bytes) → Option Bytes
  | [] => some []
  | (nm, d) :: ts =>
    match utf8Encode nm, tracksBytes ts with
    | some nb, some tb =>
      match pack2 nb.length, pack4 d.length with
      | some a, some b => some (a ++ (nb ++ (b ++ (d ++ tb))))
      | _, _ => none
    | _, _ => none

/-- build_moda_file (moda_compiler.py lines 12 to 46): the bytes
written to the output file. -/
def buildModaFile (tracks : List (Str × Bytes)) (pm : Str)
    (th : Option (Str × Bytes)) : Option Bytes :=
  match utf8Encode (dumpsMeta (tracks.map Prod.fst) pm (th.map Prod.fst)) with
  | none => none
  | some mjb =>
    match pack4 mjb.length, thumbBytes th, pack2 tracks.length,
        tracksBytes tracks with
    | some p4, some thb, some c2, some tb =>
      some (modaMagic ++ (p4 ++ (mjb ++ (thb ++ (c2 ++ tb)))))
    | _, _, _, _ => none

/-- The track-reading loop of extract_moda lines 36 to 43: count
iterations, each reading a 2-byte name length, the name, a 4-byte
data size and the data; the payload reads clamp, as f.read does. -/
def readTracks : Nat → Bytes → Except MErr (List (Str × Bytes) × Bytes)
  | 0, s => .ok ([], s)
  | k + 1, s =>
    match unpack2 (readN 2 s).1 with
    | none => .error .shortRead
    | some nameLen =>
      let s1 := (readN 2 s).2
      match utf8Decode (readN nameLen s1).1 with
      | none => .error .badUtf8
      | some nm =>
        let s2 := (readN nameLen s1).2
        match unpack4 (readN 4 s2).1 with
        | none => .error .shortRead
        | some size =>
          let s3 := (readN 4 s2).2
          match readTracks k (readN size s3).2 with
          | .error e => .error e
          | .ok (ts, s4) => .ok ((nm, (readN size s3).1) :: ts, s4)

/-- The thumbnail section as extract_moda lines 26 to 32 reads it: a
2-byte name length; when positive, the name, a 4-byte size and the
clamped data; when zero, nothing further. -/
def readThumb (s : Bytes) : Except MErr (Option (Str × Bytes) × Bytes) :=
  match unpack2 (readN 2 s).1 with
  | none => .error .shortRead
  | some tnl =>
    let s1 := (readN 2 s).2
    if 0 < tnl then
      match utf8Decode (readN tnl s1).1 with
      | none => .error .badUtf8
      | some nm =>
        let s2 := (readN tnl s1).2
        match unpack4 (readN 4 s2).1 with
        | none => .error .shortRead
        | some sz =>
          .ok (some (nm, (readN sz (readN 4 s2).2).1), (readN sz (readN 4 s2).2).2)
    else .ok (none, s1)

/-- extract_moda (moda_decompiler.py lines 13 to 49): magic check,
4-byte JSON length, UTF-8 decode and json.loads of the metadata,
thumbnail section, 2-byte track count and the track records.  Bytes
after the last declared field are ignored, as the source never
checks for end of file. -/
def extractModa (bs : Bytes) : Except MErr Raw :=
  if (readN 4 bs).1 ≠ modaMagic then .error .badMagic
  else
    let s0 := (readN 4 bs).2
    match unpack4 (readN 4 s0).1 with
    | none => .error .shortRead
    | some jsonLen =>
      let s1 := (readN 4 s0).2
      match utf8Decode (readN jsonLen s1).1 with
      | none => .error .badUtf8
      | some mstr =>
        match jsonLoads mstr with
        | none => .error .badJson
        | some meta =>
          let s2 := (readN jsonLen s1).2
          match readThumb s2 with
          | .error e => .error e
          | .ok (th, s3) =>
            match unpack2 (readN 2 s3).1 with
            | none => .error .shortRead
            | some count =>
              match readTracks count (readN 2 s3).2 with
              | .error e => .error e
              | .ok (ts, _) => .ok ⟨meta, th, ts⟩

theorem readN_fst (n : Nat) (s : Bytes) : (readN n s).1 = s.take n := rfl

theorem readN_snd (n : Nat) (s : Bytes) : (readN n s).2 = s.drop n := rfl

theorem take_append_exact {a : Bytes} (b : Bytes) {n : Nat} (h : a.length = n) :
    (a ++ b).take n = a := by
  subst h
  induction a with
  | nil => rfl
  | cons x xs ih =>
    simp only [List.cons_append, List.length_cons, List.take_succ_cons]
    rw [ih]

theorem drop_append_exact {a : Bytes} (b : Bytes) {n : Nat} (h : a.length = n) :
    (a ++ b).drop n = b := by
  subst h
  induction a with
  | nil => rfl
  | cons x xs ih =>
    simp only [List.cons_append, List.length_cons, List.drop_succ_cons]
    exact ih

theorem unpack2_short {l : Bytes} (h : l.length ≠ 2) : unpack2 l = none := by
  rcases l with _ | ⟨a, _ | ⟨b, _ | ⟨c, t⟩⟩⟩
  · rfl
  · rfl
  · simp at h
  · rfl

theorem unpack4_short {l : Bytes} (h : l.length ≠ 4) : unpack4 l = none := by
  rcases l with _ | ⟨a, _ | ⟨b, _ | ⟨c, _ | ⟨d, _ | ⟨e, t⟩⟩⟩⟩⟩
  · rfl
  · rfl
  · rfl
  · rfl
  · simp at h
  · rfl

theorem tracksBytes_names_ok {ts : List (Str × Bytes)} {tb : Bytes}
    (h : tracksBytes ts = some tb) : ∀ p ∈ ts, StrOk p.1 := by
  induction ts generalizing tb with
  | nil =>
    intro p hp
    simp at hp
  | cons t ts ih =>
    obtain ⟨nm, d⟩ := t
    intro p hp
    simp only [tracksBytes] at h
    split at h
    · rename_i nb tb2 henc htb
      split at h
      · simp only [List.mem_cons] at hp
        rcases hp with rfl | hp
        · exact utf8Encode_strOk henc
        · exact ih htb p hp
      · exact absurd h (by simp)
    · exact absurd h (by simp)

theorem thumbBytes_name_ok {th : Option (Str × Bytes)} {thb : Bytes}
    (h : thumbBytes th = some thb) :
    ∀ t ∈ (Option.map Prod.fst th).toList, StrOk t := by
  cases th with
  | none =>
    intro t ht
    simp at ht
  | some p =>
    obtain ⟨nm, d⟩ := p
    simp only [thumbBytes] at h
    split at h
    · exact absurd h (by simp)
    · rename_i nb henc
      intro t ht
      have ht2 : t = nm := by simpa using ht
      subst ht2
      exact utf8Encode_strOk henc

theorem readTracks_append {ts : List (Str × Bytes)} {tb : Bytes}
    (h : tracksBytes ts = some tb) (rest : Bytes) :
    readTracks ts.length (tb ++ rest) = .ok (ts, rest) := by
  induction ts generalizing tb with
  | nil =>
    simp only [tracksBytes, Option.some.injEq] at h
    subst h
    rfl
  | cons t ts ih =>
    obtain ⟨nm, d⟩ := t
    simp only [tracksBytes] at h
    split at h
    · rename_i nb tb2 henc htb
      split at h
      · rename_i a b hp2 hp4
        simp only [Option.some.injEq] at h
        subst h
        simp only [List.length_cons]
        simp only [readTracks, readN_fst, readN_snd, List.append_assoc]
        rw [take_append_exact (nb ++ (b ++ (d ++ (tb2 ++ rest)))) (pack2_length hp2),
            drop_append_exact (nb ++ (b ++ (d ++ (tb2 ++ rest)))) (pack2_length hp2)]
        simp only [unpack2_pack2 hp2]
        rw [take_append_exact (b ++ (d ++ (tb2 ++ rest))) rfl,
            drop_append_exact (b ++ (d ++ (tb2 ++ rest))) rfl]
        simp only [utf8Decode_utf8Encode henc]
        rw [take_append_exact (d ++ (tb2 ++ rest)) (pack4_length hp4),
            drop_append_exact (d ++ (tb2 ++ rest)) (pack4_length hp4)]
        simp only [unpack4_pack4 hp4]
        rw [take_append_exact (tb2 ++ rest) rfl, drop_append_exact (tb2 ++ rest) rfl]
        simp only [ih htb]
      · exact absurd h (by simp)
    · exact absurd h (by simp)

theorem readThumb_append {th : Option (Str × Bytes)} {thb : Bytes}
    (h : thumbBytes th = some thb)
    (hne : ∀ nm d, th = some (nm, d) → nm ≠ []) (rest : Bytes) :
    readThumb (thb ++ rest) = .ok (th, rest) := by
  cases th with
  | none =>
    simp only [thumbBytes, Option.some.injEq] at h
    subst h
    rfl
  | some p =>
    obtain ⟨nm, d⟩ := p
    have hnm : nm ≠ [] := hne nm d rfl
    simp only [thumbBytes] at h
    split at h
    · exact absurd h (by simp)
    · rename_i nb henc
      split at h
      · rename_i a b hp2 hp4
        simp only [Option.some.injEq] at h
        subst h
        simp only [readThumb, readN_fst, readN_snd, List.append_assoc]
        rw [take_append_exact (nb ++ (b ++ (d ++ rest))) (pack2_length hp2),
            drop_append_exact (nb ++ (b ++ (d ++ rest))) (pack2_length hp2)]
        simp only [unpack2_pack2 hp2]
        rw [if_pos (utf8Encode_length_pos henc hnm)]
        rw [take_append_exact (b ++ (d ++ rest)) rfl,
            drop_append_exact (b ++ (d ++ rest)) rfl]
        simp only [utf8Decode_utf8Encode henc]
        rw [take_append_exact (d ++ rest) (pack4_length hp4),
            drop_append_exact (d ++ rest) (pack4_length hp4)]
        simp only [unpack4_pack4 hp4]
        rw [take_append_exact rest rfl, drop_append_exact rest rfl]
      · exact absurd h (by simp)

/-- Decoding a built container recovers the metadata object, the
thumbnail and the tracks exactly, provided the play mode is
well-formed Unicode and a thumbnail, when present, has a nonempty
name (a basename read from an openable path is never empty). -/
theorem extractModa_build {tracks : List (Str × Bytes)} {pm : Str}
    {th : Option (Str × Bytes)} {B : Bytes} (hpm : StrOk pm)
    (hth : ∀ nm d, th = some (nm, d) → nm ≠ [])
    (hB : buildModaFile tracks pm th = some B) :
    extractModa B =
      .ok ⟨buildMeta (tracks.map Prod.fst) pm (th.map Prod.fst), th, tracks⟩ := by
  unfold buildModaFile at hB
  split at hB
  · exact absurd hB (by simp)
  · rename_i mjb hmj
    split at hB
    · rename_i p4 thb c2 tb hp4 hthb hc2 htb
      simp only [Option.some.injEq] at hB
      subst hB
      have hmjid : utf8Encode (dumpsMeta (tracks.map Prod.fst) pm (th.map Prod.fst)) =
          some (dumpsMeta (tracks.map Prod.fst) pm (th.map Prod.fst)) :=
        utf8Encode_ascii (dumpsMeta_ascii _ _ _)
      rw [hmjid] at hmj
      simp only [Option.some.injEq] at hmj
      subst hmj
      have hnames : ∀ nm ∈ tracks.map Prod.fst, StrOk nm := by
        intro nm hnm
        obtain ⟨q, hq, rfl⟩ := List.mem_map.mp hnm
        exact tracksBytes_names_ok htb q hq
      simp only [extractModa, readN_fst, readN_snd]
      rw [take_append_exact (p4 ++ (dumpsMeta (tracks.map Prod.fst) pm (th.map Prod.fst) ++
            (thb ++ (c2 ++ tb)))) (show modaMagic.length = 4 from rfl),
          drop_append_exact (p4 ++ (dumpsMeta (tracks.map Prod.fst) pm (th.map Prod.fst) ++
            (thb ++ (c2 ++ tb)))) (show modaMagic.length = 4 from rfl)]
      rw [if_neg (fun hc => hc rfl)]
      rw [take_append_exact (dumpsMeta (tracks.map Prod.fst) pm (th.map Prod.fst) ++
            (thb ++ (c2 ++ tb))) (pack4_length hp4),
          drop_append_exact (dumpsMeta (tracks.map Prod.fst) pm (th.map Prod.fst) ++
            (thb ++ (c2 ++ tb))) (pack4_length hp4)]
      simp only [unpack4_pack4 hp4]
      rw [take_append_exact (thb ++ (c2 ++ tb)) rfl,
          drop_append_exact (thb ++ (c2 ++ tb)) rfl]
      simp only [utf8Decode_utf8Encode hmjid]
      simp only [jsonLoads_dumpsMeta hpm hnames (thumbBytes_name_ok hthb)]
      simp only [readThumb_append hthb hth (c2 ++ tb)]
      rw [take_append_exact tb (pack2_length hc2), drop_append_exact tb (pack2_length hc2)]
      simp only [unpack2_pack2 hc2]
      have hrt := readTracks_append htb []
      rw [List.append_nil] at hrt
      simp only [hrt]
    · exact absurd hB (by simp)

/-! ### The player

moda_player.py keeps its engine state in the ModaPlayer fields
current_track, is_playing, play_mode, tracks_meta and sound_objects.
The pygame mixer is externalized into an environment saying which
track names mixer.Sound can load and which find_channel calls find a
free channel; a run also yields the trace of externally visible
audio actions, in program order. -/

structure AudioEnv where
  loadOk : Str → Bool
  chanAvail : Nat → Bool

/-- The audio actions the player performs: mixer.stop
(moda_player.py line 135), a mixer.Sound construction attempt for a
track name (lines 80 and 113) and starting a found channel with a
loaded sound (lines 103 and 117). -/
inductive PEvent where
  | stopAll
  | tryLoad (name : Str)
  | startChan (name : Str)
deriving DecidableEq

/-- The ModaPlayer fields that playback touches.  tracks_meta keeps
the file name of each metadata track entry (lines 78 and 111);
play_mode is whatever JSON value meta.get returned at line 39;
sound_objects holds the names of the loaded sounds, standing in for
the pygame Sound handles. -/
structure PState where
  current_track : Nat
  is_playing : Bool
  play_mode : Json
  tracks_meta : List Str
  sound_objects : List Str

/-- stop (moda_player.py lines 134 to 138). -/
def stop (st : PState) : PState × List PEvent :=
  ({ st with is_playing := false, current_track := 0, sound_objects := [] },
   [PEvent.stopAll])

/-- play_sequential (lines 107 to 123), fueled by the number of
tracks left: the recursive self-call at line 123 happens only after
current_track was advanced, so that distance bounds the recursion.
On a load failure the cursor advances and the next track is tried;
on a successful load the sound is kept and, only when find_channel
finds a channel, it is started and is_playing becomes true. -/
def playSeqAux (env : AudioEnv) : Nat → PState → PState × List PEvent
  | 0, st => (st, [])
  | f + 1, st =>
    if st.current_track < st.tracks_meta.length then
      if env.loadOk (st.tracks_meta.getD st.current_track []) then
        if env.chanAvail st.current_track then
          ({ st with sound_objects := [st.tracks_meta.getD st.current_track []],
                     is_playing := true },
           [PEvent.tryLoad (st.tracks_meta.getD st.current_track []),
            PEvent.startChan (st.tracks_meta.getD st.current_track [])])
        else
          ({ st with sound_objects := [st.tracks_meta.getD st.current_track []] },
           [PEvent.tryLoad (st.tracks_meta.getD st.current_track [])])
      else
        (((playSeqAux env f { st with current_track := st.current_track + 1 }).1),
         PEvent.tryLoad (st.tracks_meta.getD st.current_track []) ::
           (playSeqAux env f { st with current_track := st.current_track + 1 }).2)
    else (st, [])

def play_sequential (env : AudioEnv) (st : PState) : PState × List PEvent :=
  playSeqAux env (st.tracks_meta.length - st.current_track) st

/-- The per-sound threads of play_parallel: each runs _play_sound
(lines 99 to 105), asking for a free channel and starting it when
one is found; thread i serves the i-th loaded sound. -/
def parStarts (env : AudioEnv) : Nat → List Str → List PEvent
  | _, [] => []
  | i, n :: ns =>
    (if env.chanAvail i then [PEvent.startChan n] else []) ++
      parStarts env (i + 1) ns

/-- play_parallel (lines 71 to 97): an explicit stop first, a load
attempt for every track in order keeping those that load, one thread
per loaded sound, and is_playing set unconditionally at the end. -/
def play_parallel (env : AudioEnv) (st : PState) : PState × List PEvent :=
  ({ (stop st).1 with sound_objects := st.tracks_meta.filter env.loadOk,
                      is_playing := true },
   (stop st).2 ++ (st.tracks_meta.map PEvent.tryLoad ++
     parStarts env 0 (st.tracks_meta.filter env.loadOk)))

def strSequential : Str := [115, 101, 113, 117, 101, 110, 116, 105, 97, 108]

def strParallel : Str := [112, 97, 114, 97, 108, 108, 101, 108]

/-- The mode test of play at line 129: Python equality of
self.play_mode against the string parallel, which is false for every
other string and for every non-string value. -/
def isParallelMode : Json → Bool
  | Json.str s => decide (s = strParallel)
  | _ => false

/-- play (lines 125 to 132). -/
def play (env : AudioEnv) (st : PState) : PState × List PEvent :=
  if st.tracks_meta.isEmpty then (st, [])
  else if isParallelMode st.play_mode then play_parallel env st
  else play_sequential env st

/-- Association-list field lookup, as dict indexing behaves on the
duplicate-free objects this format produces. -/
def lookupStr : List (Str × Json) → Str → Option Json
  | [], _ => none
  | (k, v) :: rest, key => if k = key then some v else lookupStr rest key

def jsonGet (j : Json) (key : Str) : Option Json :=
  match j with
  | Json.obj kvs => lookupStr kvs key
  | _ => none

/-- meta.get with key play_mode and default sequential
(moda_player.py line 39). -/
def loadPlayMode (meta : Json) : Json :=
  (jsonGet meta keyPlayMode).getD (Json.str strSequential)

/-- The USEREVENT branch of check_events (lines 140 to 149) for one
end-of-track event: advance the cursor, then either play the next
track or end the session. -/
def onTrackEnd (env : AudioEnv) (st : PState) : PState × List PEvent :=
  if st.current_track + 1 < st.tracks_meta.length then
    play_sequential env { st with current_track := st.current_track + 1 }
  else
    ({ st with is_playing := false, current_track := 0 }, [])

/-! ### Player lemmas -/

theorem play_sequential_out {env : AudioEnv} {st : PState}
    (h : ¬ st.current_track < st.tracks_meta.length) :
    play_sequential env st = (st, []) := by
  unfold play_sequential
  rw [show st.tracks_meta.length - st.current_track = 0 from by omega]
  rfl

theorem play_sequential_success {env : AudioEnv} {st : PState}
    (h : st.current_track < st.tracks_meta.length)
    (hl : env.loadOk (st.tracks_meta.getD st.current_track []) = true)
    (hc : env.chanAvail st.current_track = true) :
    play_sequential env st =
      ({ st with sound_objects := [st.tracks_meta.getD st.current_track []],
                 is_playing := true },
       [PEvent.tryLoad (st.tracks_meta.getD st.current_track []),
        PEvent.startChan (st.tracks_meta.getD st.current_track [])]) := by
  unfold play_sequential
  rw [show st.tracks_meta.length - st.current_track =
      (st.tracks_meta.length - (st.current_track + 1)) + 1 from by omega]
  simp only [playSeqAux]
  rw [if_pos h, if_pos hl, if_pos hc]

theorem play_sequential_nochan {env : AudioEnv} {st : PState}
    (h : st.current_track < st.tracks_meta.length)
    (hl : env.loadOk (st.tracks_meta.getD st.current_track []) = true)
    (hc : env.chanAvail st.current_track = false) :
    play_sequential env st =
      ({ st with sound_objects := [st.tracks_meta.getD st.current_track []] },
       [PEvent.tryLoad (st.tracks_meta.getD st.current_track [])]) := by
  unfold play_sequential
  rw [show st.tracks_meta.length - st.current_track =
      (st.tracks_meta.length - (st.current_track + 1)) + 1 from by omega]
  simp only [playSeqAux]
  rw [if_pos h, if_pos hl, if_neg (by rw [hc]; simp)]

theorem play_sequential_skip {env : AudioEnv} {st : PState}
    (h : st.current_track < st.tracks_meta.length)
    (hl : env.loadOk (st.tracks_meta.getD st.current_track []) = false) :
    play_sequential env st =
      ((play_sequential env { st with current_track := st.current_track + 1 }).1,
       PEvent.tryLoad (st.tracks_meta.getD st.current_track []) ::
         (play_sequential env { st with current_track := st.current_track + 1 }).2) := by
  unfold play_sequential
  rw [show st.tracks_meta.length - st.current_track =
      (st.tracks_meta.length - (st.current_track + 1)) + 1 from by omega]
  simp only [playSeqAux]
  rw [if_pos h, if_neg (by rw [hl]; simp)]

theorem drop_eq_getD_cons {l : List Str} {n : Nat} (h : n < l.length) :
    l.drop n = l.getD n [] :: l.drop (n + 1) := by
  induction l generalizing n with
  | nil => simp at h
  | cons x xs ih =>
    cases n with
    | zero => rfl
    | succ m =>
      simp only [List.drop_succ_cons, List.getD_cons_succ]
      exact ih (by simpa using h)

theorem playSeqAux_allFail (env : AudioEnv) : ∀ (f : Nat) (st : PState),
    st.tracks_meta.length - st.current_track ≤ f →
    (∀ j, st.current_track ≤ j → j < st.tracks_meta.length →
      env.loadOk (st.tracks_meta.getD j []) = false) →
    playSeqAux env f st =
      ({ st with current_track := max st.current_track st.tracks_meta.length },
       (st.tracks_meta.drop st.current_track).map PEvent.tryLoad) := by
  intro f
  induction f with
  | zero =>
    intro st h hall
    have hle : st.tracks_meta.length ≤ st.current_track := by omega
    rw [show max st.current_track st.tracks_meta.length = st.current_track from by omega]
    rw [List.drop_eq_nil_of_le hle]
    rfl
  | succ f ih =>
    intro st h hall
    by_cases hin : st.current_track < st.tracks_meta.length
    · have hl := hall st.current_track (Nat.le_refl _) hin
      simp only [playSeqAux]
      rw [if_pos hin, if_neg (by rw [hl]; simp)]
      rw [ih { st with current_track := st.current_track + 1 }
            (by show st.tracks_meta.length - (st.current_track + 1) ≤ f; omega)
            (by intro j h1 h2
                have h1b : st.current_track + 1 ≤ j := h1
                have h2b : j < st.tracks_meta.length := h2
                exact hall j (by omega) h2b)]
      rw [show max (st.current_track + 1) st.tracks_meta.length =
          max st.current_track st.tracks_meta.length from by omega]
      rw [drop_eq_getD_cons hin]
      rfl
    · simp only [playSeqAux]
      rw [if_neg hin]
      have hle : st.tracks_meta.length ≤ st.current_track := by omega
      rw [show max st.current_track st.tracks_meta.length = st.current_track from by omega]
      rw [List.drop_eq_nil_of_le hle]
      rfl

theorem play_sequential_allFail {env : AudioEnv} {st : PState}
    (hall : ∀ j, st.current_track ≤ j → j < st.tracks_meta.length →
      env.loadOk (st.tracks_meta.getD j []) = false) :
    play_sequential env st =
      ({ st with current_track := max st.current_track st.tracks_meta.length },
       (st.tracks_meta.drop st.current_track).map PEvent.tryLoad) :=
  playSeqAux_allFail env _ st (Nat.le_refl _) hall

theorem playSeqAux_no_stop (env : AudioEnv) :
    ∀ (f : Nat) (st : PState), PEvent.stopAll ∉ (playSeqAux env f st).2 := by
  intro f
  induction f with
  | zero =>
    intro st
    simp [playSeqAux]
  | succ f ih =>
    intro st
    simp only [playSeqAux]
    split
    · split
      · split
        · simp
        · simp
      · have hr := ih { st with current_track := st.current_track + 1 }
        simp only [List.mem_cons, not_or]
        exact ⟨by simp, hr⟩
    · simp

theorem play_sequential_no_stop (env : AudioEnv) (st : PState) :
    PEvent.stopAll ∉ (play_sequential env st).2 :=
  playSeqAux_no_stop env _ st

theorem parStarts_all {env : AudioEnv} (h : ∀ i, env.chanAvail i = true) :
    ∀ (l : List Str) (i : Nat), parStarts env i l = l.map PEvent.startChan := by
  intro l
  induction l with
  | nil => intro i; rfl
  | cons n ns ih =>
    intro i
    simp only [parStarts, h i, if_true, List.map_cons, List.singleton_append, ih]

def isStart : PEvent → Bool
  | PEvent.startChan _ => true
  | _ => false

theorem filter_isStart_tryLoad (l : List Str) :
    (l.map PEvent.tryLoad).filter isStart = [] := by
  induction l with
  | nil => rfl
  | cons n ns ih => simp [isStart, ih]

theorem filter_isStart_start (l : List Str) :
    (l.map PEvent.startChan).filter isStart = l.map PEvent.startChan := by
  induction l with
  | nil => rfl
  | cons n ns ih => simp [isStart, ih]

/-! ### Helper lemmas shared by the claim theorems -/

def metaTrackList (j : Json) : List Json :=
  match jsonGet j keyTracks with
  | some (Json.arr l) => l
  | _ => []

def orderField (t : Json) : Option Int :=
  match jsonGet t keyOrder with
  | some (Json.num n) => some n
  | _ => none

theorem trackObjsFrom_orders : ∀ (names : List Str) (i : Nat),
    (trackObjsFrom i names).map orderField =
      (List.range names.length).map (fun k => some (Int.ofNat (i + k + 1))) := by
  intro names
  induction names with
  | nil => intro i; rfl
  | cons n ns ih =>
    intro i
    simp only [trackObjsFrom, List.map_cons, List.length_cons,
      List.range_succ_eq_map, List.map_map]
    congr 1
    rw [ih (i + 1)]
    apply List.map_congr_left
    intro k hk
    show some (Int.ofNat (i + 1 + k + 1)) = some (Int.ofNat (i + (k + 1) + 1))
    exact congrArg (fun z => some (Int.ofNat z)) (by omega)

theorem metaTrackList_orders (ns : List Str) (p : Str) (t : Option Str) :
    (metaTrackList (buildMeta ns p t)).map orderField =
      (List.range ns.length).map (fun k => some (Int.ofNat (k + 1))) := by
  have hm : metaTrackList (buildMeta ns p t) = trackObjsFrom 0 ns := by
    cases t <;> rfl
  rw [hm, trackObjsFrom_orders ns 0]
  apply List.map_congr_left
  intro k hk
  exact congrArg (fun z => some (Int.ofNat z)) (by omega)

/-- The compiled container of one track named a with three data
bytes, used to exhibit the clamped payload reads of the decoder. -/
def c2ex : Bytes := (buildModaFile [([97], [1, 2, 3])] strSequential none).getD []

/-! ### The claims -/

/-- C1: for every list of named track buffers, every play mode and
every optional thumbnail for which Encode succeeds, decoding the
produced bytes yields the same track count, names and byte-identical
contents in order, the same metadata (hence the same play mode), and
the same thumbnail name and bytes when one was present.  The play
mode must be well-formed Unicode and a present thumbnail name
nonempty, both guaranteed at every real call site. -/
theorem C1_roundtrip {tracks : List (Str × Bytes)} {pm : Str}
    {th : Option (Str × Bytes)} {B : Bytes} (hpm : StrOk pm)
    (hth : ∀ nm d, th = some (nm, d) → nm ≠ [])
    (hB : buildModaFile tracks pm th = some B) :
    extractModa B =
      .ok ⟨buildMeta (tracks.map Prod.fst) pm (th.map Prod.fst), th, tracks⟩ :=
  extractModa_build hpm hth hB

set_option maxRecDepth 100000 in
theorem C1_roundtrip_witness :
    extractModa ((buildModaFile [([97], [1, 2])] strSequential
        (some ([116], [9]))).getD []) =
      .ok ⟨buildMeta [[97]] strSequential (some [116]), some ([116], [9]),
           [([97], [1, 2])]⟩ :=
  @C1_roundtrip [([97], [1, 2])] strSequential (some ([116], [9]))
    ((buildModaFile [([97], [1, 2])] strSequential (some ([116], [9]))).getD [])
    (by decide)
    (fun nm d h => by
      simp only [Option.some.injEq, Prod.mk.injEq] at h
      obtain ⟨h1, h2⟩ := h
      subst h1
      decide)
    rfl

set_option maxRecDepth 100000 in
/-- C2 counterexample: the payload reads of extract_moda clamp, so a
declared length reading past the end does not fail: the strict
prefix of this valid one-track container that drops the final data
byte still decodes successfully, with the track data silently
truncated, instead of failing with TruncatedInput. -/
theorem C2_counterexample :
    extractModa c2ex =
      .ok ⟨buildMeta [[97]] strSequential none, none, [([97], [1, 2, 3])]⟩ ∧
    c2ex.dropLast.length < c2ex.length ∧
    extractModa c2ex.dropLast =
      .ok ⟨buildMeta [[97]] strSequential none, none, [([97], [1, 2])]⟩ :=
  ⟨rfl, by decide, rfl⟩

/-- C2 amended: only the fixed-width struct.unpack reads detect
truncation; in particular a buffer with a good magic but fewer than
8 bytes fails on the 4-byte JSON length read.  Payload truncation is
not detected (see the counterexample), though no read ever goes out
of bounds, every read being clamped to the available bytes. -/
theorem C2_amended {bs : Bytes} (h1 : bs.take 4 = modaMagic) (h2 : bs.length < 8) :
    extractModa bs = .error .shortRead := by
  simp only [extractModa, readN_fst, readN_snd, h1]
  rw [if_neg (fun hc => hc rfl)]
  have hlen : ((bs.drop 4).take 4).length ≠ 4 := by
    simp only [List.length_take, List.length_drop]
    omega
  simp only [unpack4_short hlen]

theorem C2_amended_witness : extractModa [77, 79, 68, 65, 0, 0] = .error .shortRead :=
  C2_amended (by decide) (by decide)

/-- C3: a buffer whose first four bytes differ from the magic MODA
is rejected with BadMagic at once; the decoder returns before
touching the metadata, thumbnail or track fields. -/
theorem C3_badMagic {bs : Bytes} (h : bs.take 4 ≠ modaMagic) :
    extractModa bs = .error .badMagic := by
  simp only [extractModa, readN_fst, readN_snd]
  rw [if_pos h]

theorem C3_badMagic_witness : extractModa [0, 0, 0, 0] = .error .badMagic :=
  C3_badMagic (by decide)

/-- C4: the metadata Encode builds gives track i the order i + 1,
one-based and strictly increasing with position, and the same holds
of the metadata recovered by a decode round-trip. -/
theorem C4_orders (names : List Str) (pm : Str) (th : Option Str) :
    ((metaTrackList (buildMeta names pm th)).map orderField =
      (List.range names.length).map (fun k => some (Int.ofNat (k + 1)))) ∧
    (∀ (tracks : List (Str × Bytes)) (pm2 : Str) (th2 : Option (Str × Bytes))
        (B : Bytes) (r : Raw),
      StrOk pm2 → (∀ nm d, th2 = some (nm, d) → nm ≠ []) →
      buildModaFile tracks pm2 th2 = some B → extractModa B = .ok r →
      (metaTrackList r.meta).map orderField =
        (List.range tracks.length).map (fun k => some (Int.ofNat (k + 1)))) := by
  refine ⟨metaTrackList_orders names pm th, ?_⟩
  intro tracks pm2 th2 B r hpm hth hB hE
  rw [extractModa_build hpm hth hB] at hE
  injection hE with h2
  rw [← h2]
  have h3 := metaTrackList_orders (tracks.map Prod.fst) pm2 (th2.map Prod.fst)
  rw [List.length_map] at h3
  exact h3

/-- C5: with no thumbnail the thumbnail section Encode writes is
exactly the 2-byte zero, nothing following it, and decoding such a
container reports the thumbnail absent. -/
theorem C5_noThumb (tracks : List (Str × Bytes)) (pm : Str) :
    thumbBytes none = some [0, 0] ∧
    pack2 0 = some [0, 0] ∧
    (∀ B, StrOk pm → buildModaFile tracks pm none = some B →
      extractModa B = .ok ⟨buildMeta (tracks.map Prod.fst) pm none, none, tracks⟩) := by
  refine ⟨rfl, rfl, ?_⟩
  intro B hpm hB
  exact extractModa_build hpm (fun nm d hx => absurd hx (by simp)) hB

set_option maxRecDepth 100000 in
theorem C5_noThumb_witness :
    extractModa ((buildModaFile [([99], [7])] strSequential none).getD []) =
      .ok ⟨buildMeta [[99]] strSequential none, none, [([99], [7])]⟩ :=
  (C5_noThumb [([99], [7])] strSequential).2.2
    ((buildModaFile [([99], [7])] strSequential none).getD []) (by decide) rfl

/-- C6 counterexample: play does not perform an implicit stop in
Sequential mode.  From a state with the cursor at 1 and a stale
sound handle, play keeps the cursor at 1, never emits the
channel-releasing stop, and starts the second track directly. -/
theorem C6_counterexample :
    (play ⟨fun _ => true, fun _ => true⟩
        ⟨1, true, Json.str strSequential, [[97], [98]], [[97]]⟩).1.current_track = 1 ∧
    (play ⟨fun _ => true, fun _ => true⟩
        ⟨1, true, Json.str strSequential, [[97], [98]], [[97]]⟩).2 =
      [PEvent.tryLoad [98], PEvent.startChan [98]] ∧
    PEvent.stopAll ∉ (play ⟨fun _ => true, fun _ => true⟩
        ⟨1, true, Json.str strSequential, [[97], [98]], [[97]]⟩).2 :=
  ⟨rfl, rfl, by decide⟩

/-- C6 amended: only the Parallel branch of play performs the
implicit stop (play_parallel calls stop first, so its trace opens
with the channel release and its cursor is reset); the Sequential
branch runs play_sequential directly and its trace never contains a
stop. -/
theorem C6_amended (env : AudioEnv) (st : PState) (h : st.tracks_meta ≠ []) :
    (isParallelMode st.play_mode = true →
      play env st = play_parallel env st ∧
      (play env st).2.head? = some PEvent.stopAll ∧
      (play_parallel env st).1.current_track = 0) ∧
    (isParallelMode st.play_mode = false →
      play env st = play_sequential env st ∧
      PEvent.stopAll ∉ (play env st).2) := by
  have hne : st.tracks_meta.isEmpty = false := by
    cases hst : st.tracks_meta with
    | nil => exact absurd hst h
    | cons a l => rfl
  constructor
  · intro hm
    have hp : play env st = play_parallel env st := by
      simp [play, hne, hm]
    exact ⟨hp, by rw [hp]; rfl, rfl⟩
  · intro hm
    have hp : play env st = play_sequential env st := by
      simp [play, hne, hm]
    exact ⟨hp, by rw [hp]; exact play_sequential_no_stop env st⟩

theorem C6_amended_witness :
    play ⟨fun _ => true, fun _ => true⟩ ⟨0, false, Json.str strParallel, [[99]], []⟩ =
      play_parallel ⟨fun _ => true, fun _ => true⟩
        ⟨0, false, Json.str strParallel, [[99]], []⟩ :=
  ((C6_amended ⟨fun _ => true, fun _ => true⟩
      ⟨0, false, Json.str strParallel, [[99]], []⟩ (by decide)).1 (by decide)).1

/-- C7 counterexample: when the current track loads but no channel
is free, play_sequential does not advance the cursor and does not
try the next track: with two tracks, a loadable first track and no
free channel, the cursor stays at 0, only the first track is ever
attempted, and the session is left neither playing nor ended. -/
theorem C7_counterexample :
    (play_sequential ⟨fun _ => true, fun _ => false⟩
        ⟨0, false, Json.str strSequential, [[97], [98]], []⟩).1.current_track = 0 ∧
    (play_sequential ⟨fun _ => true, fun _ => false⟩
        ⟨0, false, Json.str strSequential, [[97], [98]], []⟩).2 =
      [PEvent.tryLoad [97]] ∧
    (play_sequential ⟨fun _ => true, fun _ => false⟩
        ⟨0, false, Json.str strSequential, [[97], [98]], []⟩).1.is_playing = false :=
  ⟨rfl, rfl, rfl⟩

/-- C7 amended: in Sequential mode only a load failure advances the
cursor and retries (first conjunct); a channel-start failure after a
successful load abandons playback silently with the cursor
unmoved (second conjunct); when every remaining track fails to load
the cursor is pushed to the end of the list with is_playing left as
it was, not forced false (third conjunct); it is the end-of-track
handler of check_events that ends the session with is_playing false
once the last track finishes (fourth conjunct). -/
theorem C7_amended (env : AudioEnv) (st : PState) :
    (st.current_track < st.tracks_meta.length →
      env.loadOk (st.tracks_meta.getD st.current_track []) = false →
      play_sequential env st =
        ((play_sequential env { st with current_track := st.current_track + 1 }).1,
         PEvent.tryLoad (st.tracks_meta.getD st.current_track []) ::
           (play_sequential env { st with current_track := st.current_track + 1 }).2)) ∧
    (st.current_track < st.tracks_meta.length →
      env.loadOk (st.tracks_meta.getD st.current_track []) = true →
      env.chanAvail st.current_track = false →
      play_sequential env st =
        ({ st with sound_objects := [st.tracks_meta.getD st.current_track []] },
         [PEvent.tryLoad (st.tracks_meta.getD st.current_track [])])) ∧
    ((∀ j, st.current_track ≤ j → j < st.tracks_meta.length →
        env.loadOk (st.tracks_meta.getD j []) = false) →
      play_sequential env st =
        ({ st with current_track := max st.current_track st.tracks_meta.length },
         (st.tracks_meta.drop st.current_track).map PEvent.tryLoad)) ∧
    (¬ st.current_track + 1 < st.tracks_meta.length →
      onTrackEnd env st = ({ st with is_playing := false, current_track := 0 }, [])) :=
  ⟨fun h hl => play_sequential_skip h hl,
   fun h hl hc => play_sequential_nochan h hl hc,
   fun hall => play_sequential_allFail hall,
   fun h => by unfold onTrackEnd; rw [if_neg h]⟩

/-- C8: stop releases the channels, clears the sound handles, resets
the cursor to 0 and leaves is_playing false while touching nothing
else, and doing it again from the resulting state changes nothing
and performs the same release. -/
theorem C8_stopIdempotent (st : PState) :
    (stop st).1.is_playing = false ∧ (stop st).1.current_track = 0 ∧
    (stop st).1.sound_objects = [] ∧ (stop st).2 = [PEvent.stopAll] ∧
    (stop st).1.play_mode = st.play_mode ∧
    (stop st).1.tracks_meta = st.tracks_meta ∧
    stop (stop st).1 = ((stop st).1, [PEvent.stopAll]) :=
  ⟨rfl, rfl, rfl, rfl, rfl, rfl, rfl⟩

/-- C9: in Parallel mode with every channel available and exactly
one track failing to load, play attempts every track in order, the
failing one is skipped without aborting, and exactly N - 1 channel
starts happen, one per loaded track. -/
theorem C9_parallelSkip (env : AudioEnv) (st : PState)
    (h1 : (st.tracks_meta.filter env.loadOk).length + 1 = st.tracks_meta.length)
    (h2 : ∀ i, env.chanAvail i = true) :
    (play_parallel env st).2 =
      PEvent.stopAll :: (st.tracks_meta.map PEvent.tryLoad ++
        (st.tracks_meta.filter env.loadOk).map PEvent.startChan) ∧
    ((play_parallel env st).2.filter isStart).length + 1 = st.tracks_meta.length ∧
    (play_parallel env st).1.sound_objects = st.tracks_meta.filter env.loadOk ∧
    (play_parallel env st).1.is_playing = true := by
  have htr : (play_parallel env st).2 =
      PEvent.stopAll :: (st.tracks_meta.map PEvent.tryLoad ++
        (st.tracks_meta.filter env.loadOk).map PEvent.startChan) := by
    simp only [play_parallel, stop]
    rw [parStarts_all h2]
    rfl
  refine ⟨htr, ?_, rfl, rfl⟩
  rw [htr]
  have hf : (PEvent.stopAll :: (st.tracks_meta.map PEvent.tryLoad ++
      (st.tracks_meta.filter env.loadOk).map PEvent.startChan)).filter isStart =
      (st.tracks_meta.filter env.loadOk).map PEvent.startChan := by
    simp [isStart, filter_isStart_tryLoad, filter_isStart_start]
  rw [hf, List.length_map]
  exact h1

theorem C9_parallelSkip_witness :
    (play_parallel ⟨fun n => decide (n ≠ [98]), fun _ => true⟩
        ⟨0, false, Json.str strParallel, [[97], [98], [99]], []⟩).2 =
      PEvent.stopAll ::
        (([[97], [98], [99]] : List Str).map PEvent.tryLoad ++
          (([[97], [98], [99]] : List Str).filter
            (fun n => decide (n ≠ [98]))).map PEvent.startChan) ∧
    ((play_parallel ⟨fun n => decide (n ≠ [98]), fun _ => true⟩
        ⟨0, false, Json.str strParallel, [[97], [98], [99]], []⟩).2.filter
          isStart).length + 1 = 3 ∧
    (play_parallel ⟨fun n => decide (n ≠ [98]), fun _ => true⟩
        ⟨0, false, Json.str strParallel, [[97], [98], [99]], []⟩).1.sound_objects =
      ([[97], [98], [99]] : List Str).filter (fun n => decide (n ≠ [98])) ∧
    (play_parallel ⟨fun n => decide (n ≠ [98]), fun _ => true⟩
        ⟨0, false, Json.str strParallel, [[97], [98], [99]], []⟩).1.is_playing = true :=
  C9_parallelSkip ⟨fun n => decide (n ≠ [98]), fun _ => true⟩
    ⟨0, false, Json.str strParallel, [[97], [98], [99]], []⟩ (by decide) (fun _ => rfl)

/-- C10: with a nonempty track list, play runs the Sequential path
for every play_mode value other than the exact string parallel,
including every other string and every non-string value; only the
exact string parallel selects Parallel playback; and a metadata
object without the play_mode key yields the default sequential,
which is not parallel. -/
theorem C10_modeDispatch (env : AudioEnv) (st : PState) (meta : Json)
    (h : st.tracks_meta ≠ []) :
    (∀ s, st.play_mode = Json.str s → s ≠ strParallel →
      play env st = play_sequential env st) ∧
    (st.play_mode = Json.str strParallel → play env st = play_parallel env st) ∧
    (isParallelMode st.play_mode = false → play env st = play_sequential env st) ∧
    (jsonGet meta keyPlayMode = none →
      loadPlayMode meta = Json.str strSequential ∧
      isParallelMode (loadPlayMode meta) = false) := by
  have hne : st.tracks_meta.isEmpty = false := by
    cases hst : st.tracks_meta with
    | nil => exact absurd hst h
    | cons a l => rfl
  have hseq : isParallelMode st.play_mode = false →
      play env st = play_sequential env st := by
    intro hm
    simp [play, hne, hm]
  refine ⟨?_, ?_, hseq, ?_⟩
  · intro s hs hne2
    apply hseq
    rw [hs]
    simp only [isParallelMode]
    exact decide_eq_false hne2
  · intro hs
    simp [play, hne, hs, isParallelMode]
  · intro hg
    refine ⟨?_, ?_⟩
    · simp only [loadPlayMode, hg]
      rfl
    · simp only [loadPlayMode, hg]
      rfl

theorem C10_modeDispatch_witness :
    play ⟨fun _ => true, fun _ => true⟩ ⟨0, false, Json.str [120], [[97]], []⟩ =
      play_sequential ⟨fun _ => true, fun _ => true⟩
        ⟨0, false, Json.str [120], [[97]], []⟩ :=
  (C10_modeDispatch ⟨fun _ => true, fun _ => true⟩
      ⟨0, false, Json.str [120], [[97]], []⟩ Json.null (by decide)).1 [120] rfl (by decide)

end Moda
